import Mathlib

/-!
Verification development for the skills-manager install pipeline
(`src/validator.ts`, `src/github.ts`, `src/state.ts` of the
obsidian-skills-manager plugin).

Vault paths are modelled as lists of slash-separated segments; joining the
segments with a slash is a bijection between these lists and adapter path
strings, and every path the code builds is produced by slash-joining, so
list concatenation mirrors the string concatenations of the source exactly.
The vault adapter state is a pair of partial maps (file contents, directory
set), and each adapter primitive (`exists`, `mkdir`, `write`, `read`,
`rename`, `rmdir(recursive)`) is a total function on that state.  Network
calls are oracles passed in as `Except`-valued environments, mirroring the
thrown/returned outcomes of the fetch layer.
-/

namespace SkillsMgr

/-- Paths in the vault: the slash-separated segments of an adapter path string. -/
abbrev Path := List String

/-- Segment-level path-prefix test: `pathPre a b` holds when `a` equals `b` or
is an ancestor directory of `b`. -/
def pathPre (a b : Path) : Bool :=
  match a, b with
  | [], _ => true
  | _ :: _, [] => false
  | x :: xs, y :: ys => x == y && pathPre xs ys

theorem pathPre_nil (b : Path) : pathPre [] b = true := rfl

theorem pathPre_app (a r : Path) : pathPre a (a ++ r) = true := by
  induction a with
  | nil => rfl
  | cons x xs ih => simp [pathPre, ih]

theorem pathPre_refl (a : Path) : pathPre a a = true := by
  simpa using pathPre_app a []

theorem pathPre_app_split {t s r : Path} (h : pathPre t (s ++ r) = true) :
    pathPre t s = true ∨ pathPre s t = true := by
  induction t generalizing s with
  | nil => exact Or.inl rfl
  | cons x xs ih =>
    cases s with
    | nil => exact Or.inr rfl
    | cons y ys =>
      simp only [List.cons_append, pathPre, Bool.and_eq_true, beq_iff_eq] at h ⊢
      rcases ih h.2 with h2 | h2
      · exact Or.inl ⟨h.1, h2⟩
      · exact Or.inr ⟨h.1.symm, h2⟩

/-- In-memory model of the vault adapter state. -/
structure FS where
  files : Path → Option String
  dirs : Path → Bool

def FS.empty : FS := ⟨fun _ => none, fun _ => false⟩

/-- Shallow embedding of `adapter.exists`. -/
def FS.ex (fs : FS) (p : Path) : Bool :=
  fs.dirs p || (fs.files p).isSome

/-- Shallow embedding of `adapter.mkdir` (single level). -/
def FS.mkdir (fs : FS) (p : Path) : FS :=
  ⟨fs.files, fun q => if q = p then true else fs.dirs q⟩

/-- Shallow embedding of `adapter.write`. -/
def FS.write (fs : FS) (p : Path) (c : String) : FS :=
  ⟨fun q => if q = p then some c else fs.files q, fs.dirs⟩

/-- Shallow embedding of `adapter.read` (`none` when the file is absent). -/
def FS.read (fs : FS) (p : Path) : Option String := fs.files p

/-- Preimage of a path under renaming the subtree at `src` to `dst`. -/
def renamePre (src dst p : Path) : Option Path :=
  if pathPre dst p then some (src ++ p.drop dst.length)
  else if pathPre src p then none
  else some p

/-- Shallow embedding of `adapter.rename`: moves the whole subtree at `src`
(the entry itself and everything below it) to `dst`. -/
def FS.rename (fs : FS) (src dst : Path) : FS :=
  ⟨fun p => (renamePre src dst p).bind fs.files,
   fun p =>
     match renamePre src dst p with
     | some q => fs.dirs q
     | none => false⟩

/-- Shallow embedding of `adapter.rmdir(path, true)` (recursive removal). -/
def FS.rmdirRec (fs : FS) (d : Path) : FS :=
  ⟨fun p => if pathPre d p then none else fs.files p,
   fun p => if pathPre d p then false else fs.dirs p⟩

/-- Content of the subtree rooted at `d`, keyed by relative path. -/
def FS.sub (fs : FS) (d : Path) : Path → Option String :=
  fun rel => fs.files (d ++ rel)

theorem renamePre_dst_app (src dst r : Path) :
    renamePre src dst (dst ++ r) = some (src ++ r) := by
  simp [renamePre, pathPre_app, List.drop_left]

theorem renamePre_dst (src dst : Path) : renamePre src dst dst = some src := by
  simpa using renamePre_dst_app src dst []

theorem renamePre_other {src dst p : Path} (h1 : pathPre dst p = false)
    (h2 : pathPre src p = false) : renamePre src dst p = some p := by
  simp [renamePre, h1, h2]

/-- The time-suffixed backup path
`targetDir ++ ".backup-" ++ Date.now()` of `replaceDirWithStaging`:
the last segment of the target gets the backup suffix appended. -/
def backupPathOf (targetDir : Path) (now : Nat) : Path :=
  targetDir.dropLast ++ [targetDir.getLastD "" ++ ".backup-" ++ toString now]

/-- The rollback performed in the `catch` block of `replaceDirWithStaging`
(restore the backup to the target when the target vanished). -/
def promoteRollback (backedUp : Bool) (fs : FS) (backupDir targetDir : Path) : FS :=
  if backedUp then
    if !(fs.ex targetDir) && fs.ex backupDir then fs.rename backupDir targetDir
    else fs
  else fs

/-- One of the three fallible operations of the promotion sequence. -/
inductive PromoteStep
  | backupRename
  | stagingRename
  | backupDelete
deriving DecidableEq

/-- Shallow embedding of `replaceDirWithStaging` with a fault schedule saying
which of the three promotion operations (backup rename, staging rename,
backup delete) raises.  A raising operation leaves the state unchanged
(directory renames are atomic); the `catch` rollback itself is modelled as
succeeding, matching the claim, which quantifies over failures of the
promotion sequence only.  Returns the final state and whether the function
re-threw. -/
def replaceDirWithStagingF (fails : PromoteStep → Bool)
    (fs : FS) (stagingDir targetDir : Path) (now : Nat) : FS × Bool :=
  let backupDir := backupPathOf targetDir now
  if fs.ex targetDir then
    if fails .backupRename then (promoteRollback false fs backupDir targetDir, true)
    else
      let fs1 := fs.rename targetDir backupDir
      if fails .stagingRename then (promoteRollback true fs1 backupDir targetDir, true)
      else
        let fs2 := fs1.rename stagingDir targetDir
        if fs2.ex backupDir then
          if fails .backupDelete then (promoteRollback true fs2 backupDir targetDir, true)
          else (fs2.rmdirRec backupDir, false)
        else (fs2, false)
  else
    if fails .stagingRename then (promoteRollback false fs backupDir targetDir, true)
    else (fs.rename stagingDir targetDir, false)

/-- Exception-free run of `replaceDirWithStaging` (no promotion operation
raises), used by the install paths. -/
def replaceDirWithStaging (fs : FS) (stagingDir targetDir : Path) (now : Nat) : FS :=
  (replaceDirWithStagingF (fun _ => false) fs stagingDir targetDir now).1

theorem pathPre_app_false {x y : Path} (r : Path) (hxy : pathPre x y = false)
    (hyx : pathPre y x = false) : pathPre x (y ++ r) = false := by
  cases h : pathPre x (y ++ r) with
  | false => rfl
  | true =>
    rcases pathPre_app_split h with h2 | h2
    · rw [hxy] at h2; exact absurd h2 (by simp)
    · rw [hyx] at h2; exact absurd h2 (by simp)

/-- A vault with a prior install at `skills/foo` (content `old`) and a staged
new version at `skills/.foo.staging-5` (content `new`). -/
def fsPriorAndStaged : FS :=
  ((((FS.empty.mkdir ["skills"]).mkdir ["skills", "foo"]).write
      ["skills", "foo", "SKILL.md"] "old").mkdir
      ["skills", ".foo.staging-5"]).write
    ["skills", ".foo.staging-5", "SKILL.md"] "new"

/-- Fault schedule where exactly the best-effort backup deletion raises. -/
def failBackupDelete : PromoteStep → Bool :=
  fun s => match s with
  | PromoteStep.backupDelete => true
  | _ => false

/-- Fault schedule where exactly the staging rename raises. -/
def failStagingRename : PromoteStep → Bool :=
  fun s => match s with
  | PromoteStep.stagingRename => true
  | _ => false

/-- Counterexample to C1: when the third promotion step (the backup delete)
raises, the promotion sequence throws, but the final path afterwards holds
the newly staged content `new`, not the prior version's content `old` — so
"after the rollback attempt the final path contains exactly the prior
version's content" fails for the backup-delete step. -/
theorem promote_backupDelete_failure_keeps_new_content :
    (replaceDirWithStagingF failBackupDelete fsPriorAndStaged
        ["skills", ".foo.staging-5"] ["skills", "foo"] 5).2 = true ∧
      (replaceDirWithStagingF failBackupDelete fsPriorAndStaged
          ["skills", ".foo.staging-5"] ["skills", "foo"] 5).1.files
          ["skills", "foo", "SKILL.md"] = some "new" ∧
      fsPriorAndStaged.files ["skills", "foo", "SKILL.md"] = some "old" ∧
      some "new" ≠ some "old" := by
  refine ⟨by decide, by decide, by decide, by decide⟩

/-- C1 (amended): for every promotion over a prior install, if a step of the
promotion sequence raises then after the rollback attempt the final path
still exists and holds a complete version — the prior version's content
when the backup rename or the staging rename raised, and the staged (new)
version's content when only the best-effort backup delete raised; the final
path is never left missing.  The path hypotheses say that the target, the
staging directory and the fresh time-suffixed backup name are three
non-overlapping directories holding the prior and staged trees. -/
theorem replaceDir_failure_keeps_target
    (fails : PromoteStep → Bool) (fs : FS) (staging target : Path) (now : Nat)
    (ht : fs.dirs target = true) (hs : fs.dirs staging = true)
    (h1 : pathPre target staging = false) (h2 : pathPre staging target = false)
    (h3 : pathPre (backupPathOf target now) target = false)
    (h4 : pathPre target (backupPathOf target now) = false)
    (h5 : pathPre (backupPathOf target now) staging = false)
    (h6 : pathPre staging (backupPathOf target now) = false)
    (hthrew : (replaceDirWithStagingF fails fs staging target now).2 = true) :
    (replaceDirWithStagingF fails fs staging target now).1.ex target = true ∧
      ((replaceDirWithStagingF fails fs staging target now).1.sub target = fs.sub target ∨
        (replaceDirWithStagingF fails fs staging target now).1.sub target = fs.sub staging) ∧
      (fails PromoteStep.backupDelete = false →
        (replaceDirWithStagingF fails fs staging target now).1.sub target = fs.sub target) := by
  set B := backupPathOf target now with hB
  have hex : fs.ex target = true := by simp [FS.ex, ht]
  have f1exT : (fs.rename target B).ex target = false := by
    simp [FS.ex, FS.rename, renamePre, h3, pathPre_refl]
  have f1dirsB : (fs.rename target B).dirs B = true := by
    simp [FS.rename, renamePre_dst, ht]
  have f1exB : (fs.rename target B).ex B = true := by
    simp [FS.ex, f1dirsB]
  have f2dirsB : ((fs.rename target B).rename staging target).dirs B = true := by
    simp [FS.rename, renamePre_other h4 h6, renamePre_dst, ht]
  have f2exB : ((fs.rename target B).rename staging target).ex B = true := by
    simp [FS.ex, f2dirsB]
  have f2exT : ((fs.rename target B).rename staging target).ex target = true := by
    simp [FS.ex, FS.rename, renamePre_dst, renamePre_other h5 h1, hs]
  have rbSub : ((fs.rename target B).rename B target).sub target = fs.sub target := by
    funext rel
    simp [FS.sub, FS.rename, renamePre_dst_app]
  have rbExT : ((fs.rename target B).rename B target).ex target = true := by
    simp [FS.ex, FS.rename, renamePre_dst, ht]
  have f2Sub : ((fs.rename target B).rename staging target).sub target = fs.sub staging := by
    funext rel
    simp [FS.sub, FS.rename, renamePre_dst_app,
      renamePre_other (pathPre_app_false rel h5 h6) (pathPre_app_false rel h1 h2)]
  simp only [replaceDirWithStagingF, hex, if_true] at hthrew ⊢
  cases hbr : fails PromoteStep.backupRename with
  | true =>
    simp only [hbr, if_true, promoteRollback]
    exact ⟨by simp [FS.ex, ht], Or.inl rfl, fun _ => rfl⟩
  | false =>
    simp only [hbr, Bool.false_eq_true, if_false] at hthrew ⊢
    cases hsr : fails PromoteStep.stagingRename with
    | true =>
      simp only [hsr, if_true, promoteRollback, f1exT, f1exB, Bool.not_false, Bool.and_self]
      exact ⟨rbExT, Or.inl rbSub, fun _ => rbSub⟩
    | false =>
      simp only [hsr, Bool.false_eq_true, if_false, f2exB, if_true] at hthrew ⊢
      cases hbd : fails PromoteStep.backupDelete with
      | true =>
        simp only [hbd, if_true, promoteRollback, f2exT, Bool.not_true, Bool.false_and,
          Bool.false_eq_true, if_false]
        exact ⟨trivial, Or.inr f2Sub, fun hc => absurd hc (by simp)⟩
      | false =>
        simp only [hbd, Bool.false_eq_true, if_false] at hthrew

/-- Witness for the amended C1 at a concrete vault: the staging rename raises
and the rollback restores the prior version at the final path. -/
theorem replaceDir_failure_keeps_target_witness :
    (replaceDirWithStagingF failStagingRename fsPriorAndStaged
        ["skills", ".foo.staging-5"] ["skills", "foo"] 5).1.ex ["skills", "foo"] = true ∧
      ((replaceDirWithStagingF failStagingRename fsPriorAndStaged
          ["skills", ".foo.staging-5"] ["skills", "foo"] 5).1.sub ["skills", "foo"] =
        fsPriorAndStaged.sub ["skills", "foo"] ∨
        (replaceDirWithStagingF failStagingRename fsPriorAndStaged
            ["skills", ".foo.staging-5"] ["skills", "foo"] 5).1.sub ["skills", "foo"] =
          fsPriorAndStaged.sub ["skills", ".foo.staging-5"]) ∧
      (failStagingRename PromoteStep.backupDelete = false →
        (replaceDirWithStagingF failStagingRename fsPriorAndStaged
            ["skills", ".foo.staging-5"] ["skills", "foo"] 5).1.sub ["skills", "foo"] =
          fsPriorAndStaged.sub ["skills", "foo"]) :=
  replaceDir_failure_keeps_target failStagingRename fsPriorAndStaged
    ["skills", ".foo.staging-5"] ["skills", "foo"] 5
    (by decide) (by decide) (by decide) (by decide)
    (by decide) (by decide) (by decide) (by decide) (by decide)

/-! ### Character and string helpers mirroring the JS regex semantics -/

/-- JS RegExp whitespace class over code points. -/
def jsWs (c : Char) : Bool :=
  let n := c.toNat
  n == 0x20 || n == 0x09 || n == 0x0a || n == 0x0d || n == 0x0b || n == 0x0c ||
    n == 0xa0 || n == 0x1680 || (Nat.ble 0x2000 n && Nat.ble n 0x200a) ||
    n == 0x2028 || n == 0x2029 || n == 0x202f || n == 0x205f || n == 0x3000 ||
    n == 0xfeff

/-- JS line terminators (the characters the dot of a RegExp never matches). -/
def jsLineTerm (c : Char) : Bool :=
  let n := c.toNat
  n == 0x0a || n == 0x0d || n == 0x2028 || n == 0x2029

/-- JS RegExp word character (the class behind a word-boundary test). -/
def jsWordChar (c : Char) : Bool :=
  c.isAlphanum || c == '_'

/-- Split a character list at every occurrence of `sep`
(JS `String.prototype.split` with a one-character separator). -/
def chSplit (sep : Char) : List Char → List (List Char)
  | [] => [[]]
  | c :: rest =>
    match chSplit sep rest with
    | [] => [[]]
    | cur :: acc => if c = sep then [] :: cur :: acc else (c :: cur) :: acc

/-- JS `input.split("/")`, producing path segments. -/
def strSegs (s : String) : List String :=
  (chSplit '/' s.data).map String.mk

/-- Slash-join of segments (the inverse of `strSegs`). -/
def segsJoin (l : List String) : String :=
  String.intercalate "/" l

/-- JS `String.prototype.trim` (strips whitespace and line terminators). -/
def jsTrim (s : String) : String :=
  String.mk (((s.data.dropWhile jsWs).reverse.dropWhile jsWs).reverse)

/-- Chop a literal off the front of the input, returning the remainder. -/
def chopLit : List Char → List Char → Option (List Char)
  | [], l => some l
  | _ :: _, [] => none
  | p :: ps, c :: cs => if c = p then chopLit ps cs else none

/-- Case-insensitive `chopLit` (ASCII folding, as JS `/i` on these patterns). -/
def chopLitCI : List Char → List Char → Option (List Char)
  | [], l => some l
  | _ :: _, [] => none
  | p :: ps, c :: cs => if c.toLower = p.toLower then chopLitCI ps cs else none

/-- Chop `\s+` (maximal run, at least one character). -/
def chopWsPlus : List Char → Option (List Char)
  | [] => none
  | c :: rest => if jsWs c then some (rest.dropWhile jsWs) else none

/-- Does `m` match at some start position of the input (regex search)? -/
def scanP (m : List Char → Bool) : List Char → Bool
  | [] => m []
  | l@(_ :: rest) => m l || scanP m rest

/-- Like `scanP`, also passing the character before the candidate position
(for word-boundary and multiline-anchor tests). -/
def scanB (m : Option Char → List Char → Bool) : Option Char → List Char → Bool
  | prev, [] => m prev []
  | prev, l@(c :: rest) => m prev l || scanB m (some c) rest

/-! ### Frontmatter block handling (`/^(---\r?\n)([\s\S]*?)(\r?\n---)/`) -/

/-- Match the opening delimiter `---\r?\n` at the start of the content. -/
def fmOpen (l : List Char) : Option (List Char × List Char) :=
  match chopLit ['-', '-', '-', '\r', '\n'] l with
  | some r => some (['-', '-', '-', '\r', '\n'], r)
  | none =>
    match chopLit ['-', '-', '-', '\n'] l with
    | some r => some (['-', '-', '-', '\n'], r)
    | none => none

/-- Find the earliest closing delimiter `\r?\n---` (the lazy `[\s\S]*?`),
returning the frontmatter body, the matched delimiter and the remainder. -/
def fmFindClose : List Char → Option (List Char × List Char × List Char)
  | [] => none
  | l@(c :: rest) =>
    match chopLit ['\r', '\n', '-', '-', '-'] l with
    | some r => some ([], ['\r', '\n', '-', '-', '-'], r)
    | none =>
      match chopLit ['\n', '-', '-', '-'] l with
      | some r => some ([], ['\n', '-', '-', '-'], r)
      | none => (fmFindClose rest).map (fun t => (c :: t.1, t.2.1, t.2.2))

/-- Split content into opening delimiter, frontmatter body, closing delimiter
and the rest, when the frontmatter regex matches. -/
def fmSplit (content : String) : Option (List Char × List Char × List Char × List Char) :=
  (fmOpen content.data).bind fun p =>
    (fmFindClose p.2).map fun t => (p.1, t.1, t.2.1, t.2.2)

/-- Consume the optional `\r?\n` right after the closing delimiter (the
scanner's body-extraction regex has this extra optional newline). -/
def chopNlOpt : List Char → List Char
  | '\r' :: '\n' :: r => r
  | '\r' :: r => r
  | '\n' :: r => r
  | r => r

/-- Body of a manifest as the Threat Scanner sees it: everything after the
frontmatter block (regex `/^---\r?\n[\s\S]*?\r?\n---\r?\n?([\s\S]*)$/`),
or the whole content when no frontmatter block matches. -/
def extractBody (content : String) : String :=
  match fmSplit content with
  | some t => String.mk (chopNlOpt t.2.2.2)
  | none => content

/-! ### Frontmatter key-value parsing (`/^(\S[^:]*?):\s*(.*)/` per line) -/

/-- Split at the first colon, returning the parts before and after it. -/
def splitFirstColon : List Char → Option (List Char × List Char)
  | [] => none
  | c :: rest =>
    if c = ':' then some ([], rest)
    else (splitFirstColon rest).map (fun p => (c :: p.1, p.2))

/-- Strip one leading and one trailing quote character
(JS `replace(/^["']|["']$/g, "")`). -/
def stripQuotes (s : String) : String :=
  let isQ : Char → Bool := fun c => c == '"' || c == '\''
  let l := s.data
  let l1 := match l with
    | c :: r => if isQ c then r else l
    | [] => l
  let l2 := match l1.reverse with
    | c :: r => if isQ c then r.reverse else l1
    | [] => l1
  String.mk l2

/-- Parse one frontmatter line with the key-value regex: the key is
everything before the first colon (first character not whitespace), the
value is the rest of the line after the colon and any whitespace. -/
def parseKV (line : List Char) : Option (String × String) :=
  match line with
  | [] => none
  | c :: rest =>
    if jsWs c then none
    else
      match splitFirstColon rest with
      | none => none
      | some p =>
        let value := (p.2.dropWhile jsWs).takeWhile (fun ch => !jsLineTerm ch)
        some (jsTrim (String.mk (c :: p.1)), stripQuotes (jsTrim (String.mk value)))

/-- All parsed key-value pairs of a frontmatter body, in line order. -/
def parseFields (fm : List Char) : List (String × String) :=
  (chSplit '\n' fm).filterMap parseKV

/-- Value of a field, later lines overwriting earlier ones (JS object write). -/
def fieldsGet (l : List (String × String)) (k : String) : Option String :=
  l.reverse.lookup k

/-- JS truthiness of a field value (absent or empty string is falsy). -/
def fieldTruthy (v : Option String) : Bool :=
  match v with
  | some s => s ≠ ""
  | none => false

/-- JS `a || b` over an optional string (empty string is falsy). -/
def jsOr (o : Option String) (dflt : String) : String :=
  match o with
  | some v => if v = "" then dflt else v
  | none => dflt

/-! ### `validateSkillDir` -/

structure ValidationResult where
  valid : Bool
  errors : List String
deriving DecidableEq

/-- Shallow embedding of `validateSkillDir`: the directory and its `SKILL.md`
must exist, the manifest must carry a frontmatter block, and the `name` and
`description` fields must be present and non-empty. -/
def validateSkillDir (fs : FS) (path : Path) : ValidationResult :=
  if fs.ex path = false then
    ⟨false, ["Directory does not exist: " ++ segsJoin path]⟩
  else if fs.ex (path ++ ["SKILL.md"]) = false then
    ⟨false, ["SKILL.md not found in " ++ segsJoin path]⟩
  else
    match fs.read (path ++ ["SKILL.md"]) with
    | none => ⟨false, ["Could not read " ++ segsJoin (path ++ ["SKILL.md"])]⟩
    | some content =>
      match fmSplit content with
      | none => ⟨false, ["SKILL.md is missing YAML frontmatter (--- delimiters)"]⟩
      | some t =>
        let fields := parseFields t.2.1
        let errs :=
          (if fieldTruthy (fieldsGet fields "name") then []
           else ["Missing required frontmatter field: name"]) ++
          (if fieldTruthy (fieldsGet fields "description") then []
           else ["Missing required frontmatter field: description"])
        ⟨errs.isEmpty, errs⟩

/-! ### `ensureFrontmatter` -/

/-- The `FrontmatterDefaults` record passed to `ensureFrontmatter`. -/
structure FrontmatterDefaults where
  category : Option String := none
  version : Option String := none
  source : Option String := none
  originRepo : Option String := none
  originUrl : Option String := none

/-- Keyed lookup into the defaults record (`(defaults as Record)[field]`). -/
def defaultsGet (d : FrontmatterDefaults) : String → Option String
  | "category" => d.category
  | "version" => d.version
  | "source" => d.source
  | "origin-repo" => d.originRepo
  | "origin-url" => d.originUrl
  | _ => none

/-- Match `field\s*:` at the current position. -/
def presAt (field : List Char) (l : List Char) : Bool :=
  match chopLit field l with
  | some r =>
    match r.dropWhile jsWs with
    | ':' :: _ => true
    | _ => false
  | none => false

/-- The presence test `new RegExp("^" ++ field ++ "\\s*:", "m").test(fm)`:
the field followed by optional whitespace and a colon, at the start of the
text or right after a line terminator. -/
def fieldPresent (field : String) (fm : List Char) : Bool :=
  scanB
    (fun prev l =>
      (match prev with
       | none => true
       | some c => jsLineTerm c) &&
        presAt field.data l)
    none fm

/-- One `ensureField` step: append `\n field: value` when the field is absent. -/
def ensureField (st : List Char × Bool) (field value : String) : List Char × Bool :=
  if fieldPresent field st.1 then st
  else (st.1 ++ ('\n' :: (field ++ ": " ++ value).data), true)

/-- Fold `ensureField` over a list of field/value pairs. -/
def ensureFieldsGo (pairs : List (String × String)) (st : List Char × Bool) :
    List Char × Bool :=
  pairs.foldl (fun acc p => ensureField acc p.1 p.2) st

/-- The field/value pairs `ensureFrontmatter` feeds to `ensureField`: the
required template fields (with the defaults record overriding, JS `||`),
then the source-tracking fields.  The template argument is the
`REQUIRED_FIELDS` list.  Modelled from the spec for the template itself:
`frontmatter-template.ts` is not part of the sources, the spec describes it
as a list of field/defaultValue pairs used to backfill missing metadata. -/
def ensurePairs (template : List (String × String)) (defaults : FrontmatterDefaults) :
    List (String × String) :=
  template.map (fun fv => (fv.1, jsOr (defaultsGet defaults fv.1) fv.2)) ++
    (match defaults.source with
     | some s => [("source", s)]
     | none => []) ++
    (match defaults.originRepo with
     | some repo =>
       [("origin-repo", repo),
        ("origin-url", jsOr defaults.originUrl ("https://github.com/" ++ repo))]
     | none => [])

/-- Shallow embedding of `ensureFrontmatter`: backfill missing frontmatter
fields of the skill's manifest, leaving everything else untouched. -/
def ensureFrontmatter (template : List (String × String)) (fs : FS)
    (skillFolder : Path) (defaults : FrontmatterDefaults) : FS :=
  let skillFile := skillFolder ++ ["SKILL.md"]
  if fs.ex skillFile = false then fs
  else
    match fs.read skillFile with
    | none => fs
    | some content =>
      match fmSplit content with
      | none => fs
      | some t =>
        let res := ensureFieldsGo (ensurePairs template defaults) (t.2.1, false)
        if res.2 then
          fs.write skillFile (String.mk (t.1 ++ res.1 ++ t.2.2.1 ++ t.2.2.2))
        else fs

/-! ### Semantic-version coercion and comparison (the `semver` calls) -/

/-- Maximal leading digit run of the input. -/
def digitRun : List Char → List Char × List Char
  | [] => ([], [])
  | c :: rest =>
    if c.isDigit then
      let p := digitRun rest
      (c :: p.1, p.2)
    else ([], c :: rest)

def digitsToNat (l : List Char) : Nat :=
  l.foldl (fun acc c => acc * 10 + (c.toNat - 48)) 0

/-- A coerced semantic version (`coerce` discards any prerelease part). -/
structure SemVer where
  major : Nat
  minor : Nat
  patch : Nat
deriving DecidableEq

/-- Consume `(\.\d{1,16})` — a dot plus a qualifying digit run — if present. -/
def coercePart (l : List Char) : Option (Nat × List Char) :=
  match l with
  | '.' :: rest =>
    let p := digitRun rest
    if p.1.length == 0 || Nat.blt 16 p.1.length then none
    else some (digitsToNat p.1, p.2)
  | _ => none

/-- Try the coercion regex at a digit-run start:
`(\d{1,16})(\.(\d{1,16}))?(\.(\d{1,16}))?` with missing parts read as zero. -/
def coerceAt (l : List Char) : Option SemVer :=
  let p := digitRun l
  if p.1.length == 0 || Nat.blt 16 p.1.length then none
  else
    let major := digitsToNat p.1
    match coercePart p.2 with
    | none => some ⟨major, 0, 0⟩
    | some m =>
      match coercePart m.2 with
      | none => some ⟨major, m.1, 0⟩
      | some q => some ⟨major, m.1, q.1⟩

/-- Scan for the first digit run not preceded by a digit and coerce there
(`semver.coerce`: tolerant of a leading `v`, of partial versions, and of
arbitrary surrounding text; `none` when no version-like part exists). -/
def coerceGo : Bool → List Char → Option SemVer
  | _, [] => none
  | prevDigit, c :: rest =>
    if c.isDigit && !prevDigit then
      match coerceAt (c :: rest) with
      | some v => some v
      | none => coerceGo true rest
    else coerceGo c.isDigit rest

/-- Shallow embedding of `semver.coerce`. -/
def coerce (s : String) : Option SemVer :=
  coerceGo false s.data

/-- Shallow embedding of `semver.compare` on coerced versions. -/
def semverCmp (a b : SemVer) : Ordering :=
  (compare a.major b.major).then ((compare a.minor b.minor).then (compare a.patch b.patch))

/-! ### `fetchReleases` post-processing and `checkForUpdate` -/

/-- The release fields the pipeline consumes. -/
structure GitHubRelease where
  tag_name : String
  prerelease : Bool
deriving DecidableEq

/-- The JS sort comparator of `fetchReleases` as a signed number:
descending by coerced semver, `0` when either tag fails to coerce. -/
def cmpReleases (a b : GitHubRelease) : Int :=
  match coerce a.tag_name, coerce b.tag_name with
  | some va, some vb =>
    match semverCmp vb va with
    | Ordering.lt => -1
    | Ordering.eq => 0
    | Ordering.gt => 1
  | _, _ => 0

/-- Stable insertion by the comparator (JS `Array.prototype.sort` is stable). -/
def insertBy (c : GitHubRelease → GitHubRelease → Int) (x : GitHubRelease) :
    List GitHubRelease → List GitHubRelease
  | [] => [x]
  | y :: ys => if c x y < 0 then x :: y :: ys else y :: insertBy c x ys

def sortByJs (c : GitHubRelease → GitHubRelease → Int) (l : List GitHubRelease) :
    List GitHubRelease :=
  l.foldl (fun acc x => insertBy c x acc) []

/-- Pure part of `fetchReleases` applied to the fetched list: keep stable
releases (falling back to all when none is stable) and sort by coerced
semver descending. -/
def fetchReleasesPure (raw : List GitHubRelease) : List GitHubRelease :=
  let stable := raw.filter (fun r => !r.prerelease)
  let candidates := if stable.length > 0 then stable else raw
  sortByJs cmpReleases candidates

/-- Outcome of a `fetchReleases` call given the raw network outcome
(a thrown network error propagates). -/
def fetchReleasesExc (raw : Except String (List GitHubRelease)) :
    Except String (List GitHubRelease) :=
  match raw with
  | Except.error e => Except.error e
  | Except.ok l => Except.ok (fetchReleasesPure l)

/-- `fetchLatestRelease`: head of the processed release list. -/
def fetchLatestReleasePure (raw : Except String (List GitHubRelease)) :
    Except String (Option GitHubRelease) :=
  match fetchReleasesExc raw with
  | Except.error e => Except.error e
  | Except.ok rs => Except.ok rs.head?

structure UpdateCheckResult where
  hasUpdate : Bool
  latestVersion : String
deriving DecidableEq

/-- Shallow embedding of `checkForUpdate`: the `raw` argument is the network
outcome of the release fetch (an `error` models the fetch throwing, which
the surrounding `try`/`catch` converts to `null`). -/
def checkForUpdate (raw : Except String (List GitHubRelease)) (localVersion : String) :
    Option UpdateCheckResult :=
  match fetchLatestReleasePure raw with
  | Except.error _ => none
  | Except.ok none => none
  | Except.ok (some latest) =>
    match coerce localVersion, coerce latest.tag_name with
    | some l, some r => some ⟨semverCmp r l == Ordering.gt, latest.tag_name⟩
    | _, _ => none

/-! ### `parseSkillRef` -/

inductive SkillRefType
  | github
  | githubMonorepo
  | skillsSh
deriving DecidableEq

structure SkillRef where
  type : SkillRefType
  repo : Option String := none
  subpath : Option String := none
  skillsShId : Option String := none
deriving DecidableEq

/-- Consume an optional literal (case-insensitively). -/
def chopOptCI (lit : List Char) (l : List Char) : List Char :=
  (chopLitCI lit l).getD l

/-- Test `/^https?:\/\/(www\.)?skills\.sh\//i`. -/
def isSkillsShUrl (s : String) : Bool :=
  match chopLitCI "http".data s.data with
  | none => false
  | some r1 =>
    let r2 := chopOptCI ['s'] r1
    match chopLit "://".data r2 with
    | none => false
    | some r3 =>
      let r4 := chopOptCI "www.".data r3
      (chopLitCI "skills.sh/".data r4).isSome

/-- First match of `/skills\.sh\/(.+)/i`: the capture is the maximal run of
non-line-terminator characters after the first `skills.sh/` that is
followed by at least one such character. -/
def skillsShCapture : List Char → Option (List Char)
  | [] => none
  | l@(_ :: rest) =>
    match chopLitCI "skills.sh/".data l with
    | some r =>
      let cap := r.takeWhile (fun c => !jsLineTerm c)
      if cap.length == 0 then skillsShCapture rest else some cap
    | none => skillsShCapture rest

/-- Strip trailing slashes (`replace(/\/+$/, "")`). -/
def stripTrailSlashes (l : List Char) : List Char :=
  (l.reverse.dropWhile (fun c => c == '/')).reverse

/-- Strip one trailing `.git` (`replace(/\.git$/, "")`). -/
def stripDotGit (l : List Char) : List Char :=
  if ['t', 'i', 'g', '.'].isPrefixOf l.reverse then (l.reverse.drop 4).reverse else l

/-- Consume `[^/]+` followed by a slash. -/
def seg1Take (r : List Char) : Option (List Char × List Char) :=
  let sg := r.takeWhile (fun c => c ≠ '/')
  if sg.length == 0 then none
  else
    match r.drop sg.length with
    | '/' :: rest => some (sg, rest)
    | _ => none

/-- Match `/github\.com\/([^/]+\/[^/]+)\/tree\/[^/]+\/(.+)/` at a position. -/
def treeMatchAt (l : List Char) : Option (List Char × List Char) :=
  match chopLit "github.com/".data l with
  | none => none
  | some r =>
    match seg1Take r with
    | none => none
    | some p =>
      let s2 := p.2.takeWhile (fun c => c ≠ '/')
      if s2.length == 0 then none
      else
        match chopLit "/tree/".data (p.2.drop s2.length) with
        | none => none
        | some r2 =>
          match seg1Take r2 with
          | none => none
          | some q =>
            let cap := q.2.takeWhile (fun c => !jsLineTerm c)
            if cap.length == 0 then none
            else some (p.1 ++ '/' :: s2, cap)

def treeScan : List Char → Option (List Char × List Char)
  | [] => none
  | l@(_ :: rest) =>
    match treeMatchAt l with
    | some p => some p
    | none => treeScan rest

/-- The GitHub tree-URL (monorepo) match with its trailing-slash cleanup. -/
def treeMatchOf (s : String) : Option (String × String) :=
  (treeScan s.data).map fun p => (String.mk p.1, String.mk (stripTrailSlashes p.2))

/-- Match `/github\.com\/([^/]+\/[^/]+)\/?$/` at a position. -/
def urlMatchAt (l : List Char) : Option (List Char) :=
  match chopLit "github.com/".data l with
  | none => none
  | some r =>
    match seg1Take r with
    | none => none
    | some p =>
      let s2 := p.2.takeWhile (fun c => c ≠ '/')
      if s2.length == 0 then none
      else
        match p.2.drop s2.length with
        | [] => some (p.1 ++ '/' :: s2)
        | ['/'] => some (p.1 ++ '/' :: s2)
        | _ => none

def urlScan : List Char → Option (List Char)
  | [] => none
  | l@(_ :: rest) =>
    match urlMatchAt l with
    | some p => some p
    | none => urlScan rest

/-- The plain GitHub-URL match with its `.git` cleanup. -/
def urlMatchOf (s : String) : Option String :=
  (urlScan s.data).map fun cap => String.mk (stripDotGit cap)

/-- Substring search (JS `includes`). -/
def strHasSub (s sub : String) : Bool :=
  scanP (fun l => (chopLit sub.data l).isSome) s.data

/-- Embedding of the test `/^[^\/]+\/[^\/]+$/` (exactly one slash with
non-empty sides, i.e. exactly the two-segment inputs). -/
def matchesOwnerRepo (s : String) : Bool :=
  match strSegs s with
  | [a, b] => a ≠ "" && b ≠ ""
  | _ => false

/-- Shallow embedding of `parseSkillRef`: the rule cascade over a trimmed
input — skills.sh URL, GitHub tree URL (monorepo), plain GitHub URL,
shorthand with three or more segments (monorepo), shorthand `owner/repo`. -/
def parseSkillRef (input : String) : Option SkillRef :=
  let trimmed := jsTrim input
  if trimmed = "" then none
  else if isSkillsShUrl trimmed then
    match skillsShCapture trimmed.data with
    | some cap =>
      some ⟨SkillRefType.skillsSh, none, none, some (String.mk (stripTrailSlashes cap))⟩
    | none => none
  else
    match treeMatchOf trimmed with
    | some p => some ⟨SkillRefType.githubMonorepo, some p.1, some p.2, none⟩
    | none =>
      match urlMatchOf trimmed with
      | some repo => some ⟨SkillRefType.github, some repo, none, none⟩
      | none =>
        let segments := strSegs trimmed
        if Nat.blt 2 segments.length && !strHasSub trimmed "://" then
          some ⟨SkillRefType.githubMonorepo,
            some (segments.getD 0 "" ++ "/" ++ segments.getD 1 ""),
            some (segsJoin (segments.drop 2)), none⟩
        else if matchesOwnerRepo trimmed then
          some ⟨SkillRefType.github, some trimmed, none, none⟩
        else none

/-! ### Persistent state (`state.ts`) -/

/-- Per-skill `VersionState` entry (`SkillState` in `types.ts`). -/
structure SkillState where
  source : String
  repo : Option String := none
  version : Option String := none
  frozen : Bool
  installedAt : String
  lastUpdated : Option String := none
deriving DecidableEq

/-- The persistent store: the skills map plus the one settings field the
install pipeline reads (`githubPat`). -/
structure Store where
  skills : String → Option SkillState
  githubPat : String

def Store.getSkillState (st : Store) (name : String) : Option SkillState :=
  st.skills name

def Store.setSkillState (st : Store) (name : String) (s : SkillState) : Store :=
  ⟨fun n => if n = name then some s else st.skills n, st.githubPat⟩

def Store.removeSkillState (st : Store) (name : String) : Store :=
  ⟨fun n => if n = name then none else st.skills n, st.githubPat⟩

theorem Store.getSkillState_set (st : Store) (name : String) (s : SkillState) :
    (st.setSkillState name s).getSkillState name = some s := by
  simp [Store.getSkillState, Store.setSkillState]

/-! ### `installFromGitHub` and `updateGitHubSkill` -/

structure InstallResult where
  success : Bool
  skillName : String
  errors : List String
deriving DecidableEq

/-- Network oracle for one install run: the outcome of the `fetchReleases`
call (raw list as returned by the API) and the outcome of the one
`fetchSkillFiles` call (the fetched `FileSet` in insertion order). -/
structure FetchEnv where
  releasesRaw : Except String (List GitHubRelease)
  skillFiles : Except String (List (String × String))

/-- Recursion core of `mkdirRecursive`, structurally recursive on a fuel
bound (always called with fuel at least the segment count, and each
recursive call drops one segment, so the fuel never runs out; at fuel zero
the path has no droppable parent and the body below is the full body). -/
def mkdirRecAux : Nat → FS → Path → FS
  | 0, fs, p => if fs.ex p then fs else fs.mkdir p
  | n + 1, fs, p =>
    if fs.ex p then fs
    else
      let fs1 :=
        if p.dropLast ≠ [] ∧ p.dropLast ≠ [""] then mkdirRecAux n fs p.dropLast
        else fs
      if fs1.ex p then fs1 else fs1.mkdir p

/-- Shallow embedding of `mkdirRecursive`: create all missing parents
(`parent = dirPath.substring(0, dirPath.lastIndexOf('/'))`, recursing while
the parent string is non-empty), then the directory itself, tolerating
partially existing ancestors. -/
def mkdirRecursive (fs : FS) (p : Path) : FS :=
  mkdirRecAux p.length fs p

/-- Membership test of the fetched `FileSet` (`files.has(...)`). -/
def fsetHas (files : List (String × String)) (k : String) : Bool :=
  files.any (fun fc => fc.1 == k)

/-- Write every `FileSet` entry under the staging directory, creating parent
directories as needed (the per-file loop of the installers). -/
def writeFileSet (fs : FS) (staging : Path) (files : List (String × String)) : FS :=
  files.foldl
    (fun acc fc =>
      let targetPath := staging ++ strSegs fc.1
      let acc1 :=
        if targetPath.dropLast ≠ [] ∧ targetPath.dropLast ≠ [""] then
          mkdirRecursive acc targetPath.dropLast
        else acc
      acc1.write targetPath fc.2)
    fs

/-- `repo.split("/").pop() || repo`. -/
def repoNameOf (repo : String) : String :=
  let last := (strSegs repo).getLastD ""
  if last = "" then repo else last

/-- Release resolution of the install protocol: explicit tag lookup in the
fetched releases (absent tag fails fast), otherwise the latest release. -/
def resolveRelease (releases : Except String (List GitHubRelease))
    (version : Option String) (repo : String) :
    Except (List String) (Option GitHubRelease) :=
  match version with
  | some v =>
    match releases with
    | Except.error e => Except.error [e]
    | Except.ok rs =>
      match rs.find? (fun r => r.tag_name == v) with
      | none => Except.error ["Release " ++ v ++ " not found for " ++ repo]
      | some r => Except.ok (some r)
  | none =>
    match releases with
    | Except.error e => Except.error [e]
    | Except.ok rs => Except.ok rs.head?

/-- Shallow embedding of `installFromGitHub` (staged install): resolve the
release, fetch the `FileSet`, fail with the no-manifest error when
`SKILL.md` is absent, otherwise stage, validate (cleaning the staging on
failure), promote with rollback support, backfill frontmatter, and persist
the `VersionState` keyed by the repo-derived folder name.  Fetch errors are
the thrown exceptions the surrounding `catch` converts into a failure
result (they occur before any staging exists, so no cleanup is visible). -/
def installFromGitHub (template : List (String × String)) (env : FetchEnv)
    (fs : FS) (store : Store) (skillsDir : Path) (repo : String)
    (version : Option String) (nowMs : Nat) (nowIso : String) :
    InstallResult × FS × Store :=
  match resolveRelease (fetchReleasesExc env.releasesRaw) version repo with
  | Except.error errs => (⟨false, "", errs⟩, fs, store)
  | Except.ok release =>
    match env.skillFiles with
    | Except.error e => (⟨false, "", [e]⟩, fs, store)
    | Except.ok files =>
      if fsetHas files "SKILL.md" = false then
        (⟨false, "", ["No SKILL.md found in " ++ repo]⟩, fs, store)
      else
        let repoName := repoNameOf repo
        let skillFolder := skillsDir ++ strSegs repoName
        let stagingFolder := skillsDir ++ strSegs ("." ++ repoName ++ ".staging-" ++ toString nowMs)
        let fs1 := mkdirRecursive fs stagingFolder
        let fs2 := writeFileSet fs1 stagingFolder files
        let validation := validateSkillDir fs2 stagingFolder
        if validation.valid = false then
          let fs3 := if fs2.ex stagingFolder then fs2.rmdirRec stagingFolder else fs2
          (⟨false, repoName, validation.errors⟩, fs3, store)
        else
          let fs3 := replaceDirWithStaging fs2 stagingFolder skillFolder nowMs
          let tag := release.map (fun r => r.tag_name)
          let fs4 := ensureFrontmatter template fs3 skillFolder
            { source := some "github", version := some (jsOr tag "1.0.0"),
              originRepo := some repo }
          let store1 := store.setSkillState repoName
            ⟨"github", some repo, tag, false, nowIso, none⟩
          (⟨true, repoName, []⟩, fs4, store1)

/-- Shallow embedding of `updateGitHubSkill`: reject non-GitHub entries,
fail fast when the skill is frozen, otherwise delegate to the install and,
on success, re-read the just-persisted state and stamp `lastUpdated`. -/
def updateGitHubSkill (template : List (String × String)) (env : FetchEnv)
    (fs : FS) (store : Store) (skillsDir : Path) (folderName : String)
    (targetVersion : Option String) (nowMs : Nat) (nowIso nowIso2 : String) :
    InstallResult × FS × Store :=
  match store.getSkillState folderName with
  | none => (⟨false, folderName, ["Not a GitHub-installed skill"]⟩, fs, store)
  | some ss =>
    match ss.repo with
    | none => (⟨false, folderName, ["Not a GitHub-installed skill"]⟩, fs, store)
    | some repo =>
      if ss.source ≠ "github" ∨ repo = "" then
        (⟨false, folderName, ["Not a GitHub-installed skill"]⟩, fs, store)
      else if ss.frozen then
        (⟨false, folderName, ["Skill version is frozen"]⟩, fs, store)
      else
        let r := installFromGitHub template env fs store skillsDir repo targetVersion nowMs nowIso
        let store2 :=
          if r.1.success then
            match r.2.2.getSkillState folderName with
            | some fresh => r.2.2.setSkillState folderName { fresh with lastUpdated := some nowIso2 }
            | none => r.2.2
          else r.2.2
        (r.1, r.2.1, store2)

/-! ### `deleteSkill` -/

/-- Shallow embedding of `deleteSkill` with a fault flag for the recursive
directory removal: everything runs inside one `try`, so a raising `rmdir`
jumps to the `catch` (which returns `false`) before the state-entry
removal; otherwise the directory (when present) is removed and the
`VersionState` entry is deleted. -/
def deleteSkill (fs : FS) (store : Store) (skillsDir : Path) (folderName : String)
    (rmdirRaises : Bool) : Bool × FS × Store :=
  let skillFolder := skillsDir ++ strSegs folderName
  if fs.ex skillFolder then
    if rmdirRaises then (false, fs, store)
    else (true, fs.rmdirRec skillFolder, store.removeSkillState folderName)
  else (true, fs, store.removeSkillState folderName)

/-! ### Claim theorems: frozen update (C2), missing manifest (C3),
persisted version tag (C4), delete contract (C9) -/

/-- C2: update on a bundle whose persisted state has `frozen = true` fails
immediately with the Frozen error, and returns the vault state and the
store unchanged; the result does not depend on the network environment
(`env` is universally quantified and absent from the right-hand side), so
no fetch and no filesystem operation is performed. -/
theorem update_frozen_fails_fast (template : List (String × String)) (env : FetchEnv)
    (fs : FS) (store : Store) (skillsDir : Path) (folderName : String)
    (targetVersion : Option String) (nowMs : Nat) (nowIso nowIso2 : String)
    (ss : SkillState) (repo : String)
    (hss : store.getSkillState folderName = some ss)
    (hrepo : ss.repo = some repo) (hne : repo ≠ "")
    (hsrc : ss.source = "github") (hfrozen : ss.frozen = true) :
    updateGitHubSkill template env fs store skillsDir folderName targetVersion
        nowMs nowIso nowIso2 =
      (⟨false, folderName, ["Skill version is frozen"]⟩, fs, store) := by
  simp [updateGitHubSkill, hss, hrepo, hsrc, hne, hfrozen]

/-- Witness for C2 at a concrete frozen entry. -/
theorem update_frozen_fails_fast_witness :
    updateGitHubSkill [] ⟨Except.ok [], Except.ok []⟩ FS.empty
        ⟨fun n => if n = "repo" then
            some ⟨"github", some "owner/repo", some "v2.0.0", true, "t0", none⟩
          else none, ""⟩
        ["skills"] "repo" none 7 "t1" "t2" =
      (⟨false, "repo", ["Skill version is frozen"]⟩, FS.empty,
        ⟨fun n => if n = "repo" then
            some ⟨"github", some "owner/repo", some "v2.0.0", true, "t0", none⟩
          else none, ""⟩) :=
  update_frozen_fails_fast [] ⟨Except.ok [], Except.ok []⟩ FS.empty
    ⟨fun n => if n = "repo" then
        some ⟨"github", some "owner/repo", some "v2.0.0", true, "t0", none⟩
      else none, ""⟩
    ["skills"] "repo" none 7 "t1" "t2"
    ⟨"github", some "owner/repo", some "v2.0.0", true, "t0", none⟩ "owner/repo"
    (by simp [Store.getSkillState]) (by decide) (by decide) (by decide) (by decide)

/-- C3: an install whose fetched `FileSet` lacks the `SKILL.md` manifest
entry fails with the no-manifest error and leaves the vault state and the
persisted store unchanged — in particular the final install path is
untouched and no staging directory is created. -/
theorem install_no_manifest_fails_clean (template : List (String × String)) (env : FetchEnv)
    (fs : FS) (store : Store) (skillsDir : Path) (repo : String)
    (version : Option String) (nowMs : Nat) (nowIso : String)
    (release : Option GitHubRelease) (files : List (String × String))
    (hres : resolveRelease (fetchReleasesExc env.releasesRaw) version repo =
      Except.ok release)
    (hfiles : env.skillFiles = Except.ok files)
    (hno : fsetHas files "SKILL.md" = false) :
    installFromGitHub template env fs store skillsDir repo version nowMs nowIso =
      (⟨false, "", ["No SKILL.md found in " ++ repo]⟩, fs, store) := by
  simp [installFromGitHub, hres, hfiles, hno]

/-- Witness for C3 at a concrete manifest-less `FileSet`. -/
theorem install_no_manifest_fails_clean_witness :
    installFromGitHub [] ⟨Except.ok [⟨"v1.0.0", false⟩], Except.ok [("README.md", "x")]⟩
        FS.empty ⟨fun _ => none, ""⟩ ["skills"] "owner/repo" none 7 "t1" =
      (⟨false, "", ["No SKILL.md found in owner/repo"]⟩, FS.empty, ⟨fun _ => none, ""⟩) :=
  install_no_manifest_fails_clean [] ⟨Except.ok [⟨"v1.0.0", false⟩], Except.ok [("README.md", "x")]⟩
    FS.empty ⟨fun _ => none, ""⟩ ["skills"] "owner/repo" none 7 "t1"
    (some ⟨"v1.0.0", false⟩) [("README.md", "x")]
    rfl rfl (by decide)

/-- C4: a successful update whose install resolved a release with tag `T`
leaves the persisted entry holding exactly the release tag `T` as its
version (never a placeholder), with `lastUpdated` stamped onto the state
re-read after the install persisted it: the final entry is the freshly
persisted install state (`installedAt` is the new timestamp) plus the
`lastUpdated` stamp. -/
theorem update_success_persists_release_tag (template : List (String × String))
    (env : FetchEnv) (fs : FS) (store : Store) (skillsDir : Path)
    (folderName : String) (targetVersion : Option String) (nowMs : Nat)
    (nowIso nowIso2 : String) (ss : SkillState) (repo : String)
    (rel : GitHubRelease) (T : String)
    (hss : store.getSkillState folderName = some ss)
    (hrepo : ss.repo = some repo) (hne : repo ≠ "")
    (hsrc : ss.source = "github") (hfrozen : ss.frozen = false)
    (hres : resolveRelease (fetchReleasesExc env.releasesRaw) targetVersion repo =
      Except.ok (some rel))
    (htag : rel.tag_name = T)
    (hfold : repoNameOf repo = folderName)
    (hsucc : (updateGitHubSkill template env fs store skillsDir folderName targetVersion
        nowMs nowIso nowIso2).1.success = true) :
    (updateGitHubSkill template env fs store skillsDir folderName targetVersion
        nowMs nowIso nowIso2).2.2.getSkillState folderName =
      some ⟨"github", some repo, some T, false, nowIso, some nowIso2⟩ := by
  cases hsf : env.skillFiles with
  | error e =>
    simp [updateGitHubSkill, hss, hrepo, hsrc, hne, hfrozen, installFromGitHub,
      hres, hsf] at hsucc
  | ok files =>
    cases hhas : fsetHas files "SKILL.md" with
    | false =>
      simp [updateGitHubSkill, hss, hrepo, hsrc, hne, hfrozen, installFromGitHub,
        hres, hsf, hhas] at hsucc
    | true =>
      simp [updateGitHubSkill, hss, hrepo, hsrc, hne, hfrozen, installFromGitHub,
        hres, hsf, hhas] at hsucc ⊢
      split at hsucc
      · simp at hsucc
      · rename_i hval
        simp only [Bool.not_eq_false] at hval
        simp only [hfold] at hval
        simp [hval, hfold, htag, Store.getSkillState_set, Store.setSkillState,
          Store.getSkillState]

/-- Witness for C4: a concrete successful update resolving tag `v2.1.0`
persists exactly that tag, with the fresh install timestamp and the
`lastUpdated` stamp. -/
theorem update_success_persists_release_tag_witness :
    (updateGitHubSkill []
        ⟨Except.ok [⟨"v2.1.0", false⟩],
          Except.ok [("SKILL.md", "---\nname: demo\ndescription: a demo\n---\nBody\n")]⟩
        FS.empty
        ⟨fun n => if n = "repo" then
            some ⟨"github", some "owner/repo", some "v2.0.0", false, "t0", none⟩
          else none, ""⟩
        ["skills"] "repo" none 7 "t1" "t2").2.2.getSkillState "repo" =
      some ⟨"github", some "owner/repo", some "v2.1.0", false, "t1", some "t2"⟩ :=
  update_success_persists_release_tag []
    ⟨Except.ok [⟨"v2.1.0", false⟩],
      Except.ok [("SKILL.md", "---\nname: demo\ndescription: a demo\n---\nBody\n")]⟩
    FS.empty
    ⟨fun n => if n = "repo" then
        some ⟨"github", some "owner/repo", some "v2.0.0", false, "t0", none⟩
      else none, ""⟩
    ["skills"] "repo" none 7 "t1" "t2"
    ⟨"github", some "owner/repo", some "v2.0.0", false, "t0", none⟩ "owner/repo"
    ⟨"v2.1.0", false⟩ "v2.1.0"
    (by simp [Store.getSkillState]) (by decide) (by decide) (by decide) (by decide)
    rfl (by decide) (by decide) (by decide)

/-- The store used by the delete-contract examples: one entry `foo`. -/
def storeFoo : Store :=
  ⟨fun n => if n = "foo" then
      some ⟨"github", some "o/foo", some "v1.0.0", false, "t0", none⟩
    else none, ""⟩

/-- Counterexample to C9: when the recursive directory removal raises, the
single `try` block jumps to the `catch`, which returns `false` without ever
reaching the state-entry removal — the `VersionState` entry is still
present afterwards, so the removal is not "always attempted". -/
theorem delete_rmdir_failure_blocks_state_removal :
    (deleteSkill fsPriorAndStaged storeFoo ["skills"] "foo" true).1 = false ∧
      (deleteSkill fsPriorAndStaged storeFoo ["skills"] "foo" true).2.2.getSkillState "foo" =
        some ⟨"github", some "o/foo", some "v1.0.0", false, "t0", none⟩ :=
  ⟨by decide, by decide⟩

/-- C9 (amended): the state-entry removal is attempted (and succeeds)
whenever the directory removal does not raise or the directory is absent;
when the recursive removal raises, `deleteSkill` returns `false` with the
vault and the store (including the entry) unchanged — the failure blocks
the state-entry removal. -/
theorem deleteSkill_contract (fs : FS) (store : Store) (skillsDir : Path)
    (folderName : String) (rmdirRaises : Bool) :
    ((rmdirRaises = false ∨ fs.ex (skillsDir ++ strSegs folderName) = false) →
        (deleteSkill fs store skillsDir folderName rmdirRaises).1 = true ∧
          (deleteSkill fs store skillsDir folderName rmdirRaises).2.2 =
            store.removeSkillState folderName) ∧
      (rmdirRaises = true → fs.ex (skillsDir ++ strSegs folderName) = true →
        deleteSkill fs store skillsDir folderName rmdirRaises = (false, fs, store)) := by
  unfold deleteSkill
  constructor
  · intro h
    rcases h with h | h
    · subst h
      by_cases hex : fs.ex (skillsDir ++ strSegs folderName) = true
      · simp [hex]
      · simp [hex]
    · simp [h]
  · intro h1 h2
    simp [h1, h2]

/-- Witness for the amended C9 at a concrete vault: a non-raising delete
removes the entry and reports success. -/
theorem deleteSkill_contract_witness :
    (deleteSkill fsPriorAndStaged storeFoo ["skills"] "foo" false).1 = true ∧
      (deleteSkill fsPriorAndStaged storeFoo ["skills"] "foo" false).2.2 =
        storeFoo.removeSkillState "foo" :=
  (deleteSkill_contract fsPriorAndStaged storeFoo ["skills"] "foo" false).1 (Or.inl rfl)

/-! ### Claim theorems: `checkForUpdate` (C5) and the Resolver shorthand (C8) -/

/-- C5: `checkForUpdate` is total (a thrown fetch is the `error` case and
yields Unavailable); when either the local version or the latest remote tag
fails semver coercion the result is Unavailable; otherwise `hasUpdate`
holds exactly when the coerced remote is strictly greater than the coerced
local version.  Concretely, local `2.0.0` against `v2.0.0` gives no update,
against `v2.1.0` gives an update, and against the non-numeric tag `latest`
gives Unavailable. -/
theorem checkForUpdate_contract :
    (∀ (e localVersion : String), checkForUpdate (Except.error e) localVersion = none) ∧
    (∀ (raw : List GitHubRelease) (localVersion : String) (latest : GitHubRelease),
      (fetchReleasesPure raw).head? = some latest →
      (coerce localVersion = none ∨ coerce latest.tag_name = none) →
      checkForUpdate (Except.ok raw) localVersion = none) ∧
    (∀ (raw : List GitHubRelease) (localVersion : String) (latest : GitHubRelease)
      (l r : SemVer),
      (fetchReleasesPure raw).head? = some latest →
      coerce localVersion = some l → coerce latest.tag_name = some r →
      checkForUpdate (Except.ok raw) localVersion =
        some ⟨semverCmp r l == Ordering.gt, latest.tag_name⟩) ∧
    (∀ (raw : List GitHubRelease) (localVersion : String),
      (fetchReleasesPure raw).head? = none →
      checkForUpdate (Except.ok raw) localVersion = none) ∧
    checkForUpdate (Except.ok [⟨"v2.0.0", false⟩]) "2.0.0" = some ⟨false, "v2.0.0"⟩ ∧
    checkForUpdate (Except.ok [⟨"v2.1.0", false⟩]) "2.0.0" = some ⟨true, "v2.1.0"⟩ ∧
    checkForUpdate (Except.ok [⟨"latest", false⟩]) "2.0.0" = none := by
  refine ⟨fun e lv => rfl, ?_, ?_, ?_, by decide, by decide, by decide⟩
  · intro raw lv latest h hc
    rcases hc with hc | hc
    · simp [checkForUpdate, fetchLatestReleasePure, fetchReleasesExc, h, hc]
    · cases hl : coerce lv <;>
        simp [checkForUpdate, fetchLatestReleasePure, fetchReleasesExc, h, hc, hl]
  · intro raw lv latest l r h hl hr
    simp [checkForUpdate, fetchLatestReleasePure, fetchReleasesExc, h, hl, hr]
  · intro raw lv h
    simp [checkForUpdate, fetchLatestReleasePure, fetchReleasesExc, h]

/-- Witness for C5: a strictly newer remote release reports an update. -/
theorem checkForUpdate_contract_witness :
    checkForUpdate (Except.ok [⟨"v9.9.9", false⟩]) "1.0.0" = some ⟨true, "v9.9.9"⟩ :=
  checkForUpdate_contract.2.2.1 [⟨"v9.9.9", false⟩] "1.0.0" ⟨"v9.9.9", false⟩
    ⟨1, 0, 0⟩ ⟨9, 9, 9⟩ rfl rfl rfl

/-- Counterexample to C8: the shorthand `o/r/a` has only one extra segment
beyond `owner/repo` (three segments in total), yet the Resolver already
returns a monorepo locator for it — so "a shorthand becomes a monorepo
locator only when it has 2 or more extra segments" fails. -/
theorem parseSkillRef_one_extra_segment_is_monorepo :
    parseSkillRef "o/r/a" =
      some ⟨SkillRefType.githubMonorepo, some "o/r", some "a", none⟩ ∧
      (strSegs "o/r/a").length = 3 :=
  ⟨by decide, by decide⟩

/-- C8 (amended): a two-segment non-URL shorthand resolves to a standalone
locator with repoId `owner/repo`, and a shorthand with one or more extra
segments resolves to a monorepo locator with the joined extra segments as
subpath — concretely `owner/repo/a/b` gives repoId `owner/repo` and subpath
`a/b`.  The URL-shaped hypotheses state that the input matches none of the
URL rules tried earlier in the cascade. -/
theorem parseSkillRef_shorthand_contract :
    (∀ (t o r : String), jsTrim t = t → t ≠ "" → isSkillsShUrl t = false →
      treeMatchOf t = none → urlMatchOf t = none → strSegs t = [o, r] →
      o ≠ "" → r ≠ "" →
      parseSkillRef t = some ⟨SkillRefType.github, some t, none, none⟩) ∧
    (∀ (t o r : String) (rest : List String), jsTrim t = t → t ≠ "" →
      isSkillsShUrl t = false → treeMatchOf t = none → urlMatchOf t = none →
      strHasSub t "://" = false → strSegs t = o :: r :: rest → rest ≠ [] →
      parseSkillRef t = some ⟨SkillRefType.githubMonorepo, some (o ++ "/" ++ r),
        some (segsJoin rest), none⟩) ∧
    parseSkillRef "owner/repo/a/b" =
      some ⟨SkillRefType.githubMonorepo, some "owner/repo", some "a/b", none⟩ := by
  refine ⟨?_, ?_, by decide⟩
  · intro t o r ht hne hss htree hurl hsegs ho hr
    simp [parseSkillRef, ht, hne, hss, htree, hurl, hsegs, matchesOwnerRepo, ho, hr, Nat.blt]
  · intro t o r rest ht hne hss htree hurl hnu hsegs hrest
    cases rest with
    | nil => exact absurd rfl hrest
    | cons x xs =>
      simp [parseSkillRef, ht, hne, hss, htree, hurl, hsegs, hnu, Nat.blt, Nat.ble]

/-- Witness for C8 at the concrete shorthand `owner/repo`. -/
theorem parseSkillRef_shorthand_contract_witness :
    parseSkillRef "owner/repo" = some ⟨SkillRefType.github, some "owner/repo", none, none⟩ :=
  parseSkillRef_shorthand_contract.1 "owner/repo" "owner" "repo"
    (by decide) (by decide) (by decide) (by decide) (by decide) (by decide)
    (by decide) (by decide)

/-! ### Threat Scanner (`scanForThreats`) -/

inductive Severity
  | warning
  | danger
deriving DecidableEq

inductive RiskLevel
  | clean
  | warning
  | danger
deriving DecidableEq

/-- No word character before the candidate position (left half of `\b`). -/
def noWordBefore : Option Char → Bool
  | none => true
  | some c => !jsWordChar c

/-- No word character at the position (right half of `\b`). -/
def noWordAt : List Char → Bool
  | [] => true
  | c :: _ => !jsWordChar c

/-- Test `\b<word>\b`. -/
def wordLitTest (w : String) (s : String) : Bool :=
  scanB
    (fun prev l =>
      noWordBefore prev &&
        (match chopLit w.data l with
         | some r => noWordAt r
         | none => false))
    none s.data

/-- Test `\b<word>\s*\(`. -/
def wordThenWsParen (w : String) (s : String) : Bool :=
  scanB
    (fun prev l =>
      noWordBefore prev &&
        (match chopLit w.data l with
         | some r =>
           match r.dropWhile jsWs with
           | '(' :: _ => true
           | _ => false
         | none => false))
    none s.data

/-- Test `\brequests\.(post|get|put)\b`. -/
def testRequests (s : String) : Bool :=
  scanB
    (fun prev l =>
      noWordBefore prev &&
        (match chopLit "requests.".data l with
         | some r =>
           (match chopLit "post".data r with
            | some r2 => noWordAt r2
            | none => false) ||
           (match chopLit "get".data r with
            | some r2 => noWordAt r2
            | none => false) ||
           (match chopLit "put".data r with
            | some r2 => noWordAt r2
            | none => false)
         | none => false))
    none s.data

/-- Test `\bnc\s+-`. -/
def testNc (s : String) : Bool :=
  scanB
    (fun prev l =>
      noWordBefore prev &&
        (match chopLit "nc".data l with
         | some r =>
           match chopWsPlus r with
           | some r2 =>
             match r2 with
             | '-' :: _ => true
             | _ => false
           | none => false
         | none => false))
    none s.data

/-- Test `\brm\s+-rf\b`. -/
def testRmRf (s : String) : Bool :=
  scanB
    (fun prev l =>
      noWordBefore prev &&
        (match chopLit "rm".data l with
         | some r =>
           match chopWsPlus r with
           | some r2 =>
             match chopLit "-rf".data r2 with
             | some r3 => noWordAt r3
             | none => false
           | none => false
         | none => false))
    none s.data

/-- Test `\bdd\s+if=\/dev\/`. -/
def testDd (s : String) : Bool :=
  scanB
    (fun prev l =>
      noWordBefore prev &&
        (match chopLit "dd".data l with
         | some r =>
           match chopWsPlus r with
           | some r2 => (chopLit "if=/dev/".data r2).isSome
           | none => false
         | none => false))
    none s.data

/-- Search for `\|\s*bash` within the same line (the dot of `.*` crosses no
line terminator; the pipe may sit anywhere in that run). -/
def pipeBashFrom : List Char → Bool
  | [] => false
  | c :: rest =>
    if jsLineTerm c then false
    else
      (c == '|' && (chopLit "bash".data (rest.dropWhile jsWs)).isSome) ||
        pipeBashFrom rest

/-- Test `curl\s.*\|\s*bash`. -/
def testCurlPipeBash (s : String) : Bool :=
  scanP
    (fun l =>
      match chopLit "curl".data l with
      | some r =>
        match r with
        | c :: r2 => jsWs c && pipeBashFrom r2
        | [] => false
      | none => false)
    s.data

/-- Substring test for the plain-literal credential patterns. -/
def subLitTest (w : String) (s : String) : Bool :=
  strHasSub s w

/-- Match `previous\s+instructions` (case-insensitively). -/
def matchPrevInstr (l : List Char) : Bool :=
  match chopLitCI "previous".data l with
  | some r =>
    match chopWsPlus r with
    | some r2 => (chopLitCI "instructions".data r2).isSome
    | none => false
  | none => false

/-- Match `ignore\s+(all\s+)?previous\s+instructions` at the position. -/
def matchIgnoreAt (l : List Char) : Bool :=
  match chopLitCI "ignore".data l with
  | some r =>
    match chopWsPlus r with
    | some r2 =>
      (match chopLitCI "all".data r2 with
       | some r3 =>
         match chopWsPlus r3 with
         | some r4 => matchPrevInstr r4
         | none => false
       | none => false) ||
        matchPrevInstr r2
    | none => false
  | none => false

/-- Test `ignore\s+(all\s+)?previous\s+instructions` (flag `i`). -/
def testIgnorePrev (s : String) : Bool :=
  scanP matchIgnoreAt s.data

/-- Test `you\s+are\s+now\b` (flag `i`). -/
def testYouAreNow (s : String) : Bool :=
  scanP
    (fun l =>
      match chopLitCI "you".data l with
      | some r =>
        match chopWsPlus r with
        | some r2 =>
          match chopLitCI "are".data r2 with
          | some r3 =>
            match chopWsPlus r3 with
            | some r4 =>
              match chopLitCI "now".data r4 with
              | some r5 => noWordAt r5
              | none => false
            | none => false
          | none => false
        | none => false
      | none => false)
    s.data

/-- Test `<!--[\s\S]*?(ignore|override|forget)` (flag `i`). -/
def testHtmlComment (s : String) : Bool :=
  scanP
    (fun l =>
      match chopLit "<!--".data l with
      | some r =>
        scanP
          (fun l2 =>
            (chopLitCI "ignore".data l2).isSome ||
              (chopLitCI "override".data l2).isSome ||
              (chopLitCI "forget".data l2).isSome)
          r
      | none => false)
    s.data

/-- Match `(above|previous)\b` (case-insensitively). -/
def matchAbovePrev (l : List Char) : Bool :=
  (match chopLitCI "above".data l with
   | some r => noWordAt r
   | none => false) ||
  (match chopLitCI "previous".data l with
   | some r => noWordAt r
   | none => false)

/-- Test `\bdo\s+not\s+follow\s+(the\s+)?(above|previous)\b` (flag `i`). -/
def testDoNotFollow (s : String) : Bool :=
  scanB
    (fun prev l =>
      noWordBefore prev &&
        (match chopLitCI "do".data l with
         | some r1 =>
           match chopWsPlus r1 with
           | some r2 =>
             match chopLitCI "not".data r2 with
             | some r3 =>
               match chopWsPlus r3 with
               | some r4 =>
                 match chopLitCI "follow".data r4 with
                 | some r5 =>
                   match chopWsPlus r5 with
                   | some r6 =>
                     (match chopLitCI "the".data r6 with
                      | some r7 =>
                        match chopWsPlus r7 with
                        | some r8 => matchAbovePrev r8
                        | none => false
                      | none => false) ||
                      matchAbovePrev r6
                   | none => false
                 | none => false
               | none => false
             | none => false
           | none => false
         | none => false))
    none s.data

/-- One scanner rule: the matcher of the regex, its pre-assigned severity,
the regex source text (the `pattern` field of a finding) and description. -/
structure ThreatPattern where
  test : String → Bool
  severity : Severity
  src : String
  description : String

/-- The operational-risk rules (`SCRIPT_PATTERNS`). -/
def SCRIPT_PATTERNS : List ThreatPattern :=
  [⟨wordLitTest "curl", Severity.warning, "\\bcurl\\b", "Network call: curl"⟩,
   ⟨wordLitTest "wget", Severity.warning, "\\bwget\\b", "Network call: wget"⟩,
   ⟨wordThenWsParen "fetch", Severity.warning, "\\bfetch\\s*\\(", "Network call: fetch()"⟩,
   ⟨testRequests, Severity.warning, "\\brequests\\.(post|get|put)\\b",
     "Network call: python requests"⟩,
   ⟨testNc, Severity.danger, "\\bnc\\s+-", "Network call: netcat"⟩,
   ⟨testRmRf, Severity.danger, "\\brm\\s+-rf\\b", "Destructive: rm -rf"⟩,
   ⟨wordLitTest "shred", Severity.danger, "\\bshred\\b", "Destructive: shred"⟩,
   ⟨testDd, Severity.danger, "\\bdd\\s+if=\\/dev\\/", "Destructive: dd from device"⟩,
   ⟨testCurlPipeBash, Severity.danger, "curl\\s.*\\|\\s*bash",
     "Remote code execution: curl pipe to bash"⟩,
   ⟨wordThenWsParen "eval", Severity.danger, "\\beval\\s*\\(", "Code execution: eval()"⟩,
   ⟨wordThenWsParen "exec", Severity.warning, "\\bexec\\s*\\(", "Code execution: exec()"⟩,
   ⟨subLitTest "~/.ssh", Severity.danger, "~\\/\\.ssh", "Credential access: ~/.ssh"⟩,
   ⟨subLitTest "~/.aws", Severity.danger, "~\\/\\.aws", "Credential access: ~/.aws"⟩,
   ⟨subLitTest "~/.env", Severity.warning, "~\\/\\.env", "Credential access: ~/.env"⟩,
   ⟨subLitTest "~/.npmrc", Severity.warning, "~\\/\\.npmrc", "Credential access: ~/.npmrc"⟩]

/-- The prompt-injection rules (`PROMPT_INJECTION_PATTERNS`), all danger. -/
def PROMPT_INJECTION_PATTERNS : List ThreatPattern :=
  [⟨testIgnorePrev, Severity.danger, "ignore\\s+(all\\s+)?previous\\s+instructions",
     "Prompt injection: ignore previous instructions"⟩,
   ⟨testYouAreNow, Severity.danger, "you\\s+are\\s+now\\b", "Prompt injection: role override"⟩,
   ⟨testHtmlComment, Severity.danger, "<!--[\\s\\S]*?(ignore|override|forget)",
     "Prompt injection: hidden command in HTML comment"⟩,
   ⟨testDoNotFollow, Severity.danger, "\\bdo\\s+not\\s+follow\\s+(the\\s+)?(above|previous)\\b",
     "Prompt injection: instruction override"⟩]

structure SecurityThreat where
  severity : Severity
  file : String
  pattern : String
  description : String
deriving DecidableEq

structure SecurityScanResult where
  threats : List SecurityThreat
  riskLevel : RiskLevel
deriving DecidableEq

/-- The finding a matching pattern contributes. -/
def mkThreat (tp : ThreatPattern) (file : String) : SecurityThreat :=
  ⟨tp.severity, file, tp.src, tp.description⟩

/-- The risk-level computation at the end of `scanForThreats`. -/
def riskLevelOf (threats : List SecurityThreat) : RiskLevel :=
  if threats.any (fun t => t.severity == Severity.danger) then RiskLevel.danger
  else if threats.length > 0 then RiskLevel.warning
  else RiskLevel.clean

/-- The scanner's view of the bundle on disk: the manifest (`none`: absent,
`some none`: unreadable and skipped, `some (some c)`: content `c`) and the
`scripts/` directory listing with each file's full path and readable
content (`none`: the read throws and the file is skipped). -/
structure ScanInput where
  skillMd : Option (Option String)
  scripts : Option (List (String × Option String))

/-- Shallow embedding of `scanForThreats`: prompt-injection patterns then
operational-risk patterns over the manifest body, operational-risk patterns
over every readable script file, then the risk level of the findings. -/
def scanForThreats (input : ScanInput) : SecurityScanResult :=
  let mdThreats :=
    match input.skillMd with
    | some (some content) =>
      let body := extractBody content
      ((PROMPT_INJECTION_PATTERNS.filter (fun tp => tp.test body)).map
          (fun tp => mkThreat tp "SKILL.md")) ++
        ((SCRIPT_PATTERNS.filter (fun tp => tp.test body)).map
          (fun tp => mkThreat tp "SKILL.md"))
    | _ => []
  let scriptThreats :=
    match input.scripts with
    | some files =>
      files.foldr
        (fun fc acc =>
          (match fc.2 with
           | some content =>
             (SCRIPT_PATTERNS.filter (fun tp => tp.test content)).map
               (fun tp => mkThreat tp ("scripts/" ++ repoNameOf fc.1))
           | none => []) ++ acc)
        []
    | none => []
  let threats := mdThreats ++ scriptThreats
  ⟨threats, riskLevelOf threats⟩

theorem chopLit_concat : ∀ {p l r : List Char}, chopLit p l = some r → l = p ++ r := by
  intro p
  induction p with
  | nil =>
    intro l r h
    simpa using Option.some.inj h
  | cons x xs ih =>
    intro l r h
    cases l with
    | nil => simp [chopLit] at h
    | cons c cs =>
      simp only [chopLit] at h
      by_cases hc : c = x
      · subst hc
        simp only [if_pos rfl] at h
        simpa using ih h
      · simp [hc] at h

theorem scanP_mono {m₁ m₂ : List Char → Bool} (hm : ∀ l, m₁ l = true → m₂ l = true) :
    ∀ {l : List Char}, scanP m₁ l = true → scanP m₂ l = true := by
  intro l
  induction l with
  | nil => intro h; exact hm [] h
  | cons c cs ih =>
    intro h
    simp only [scanP, Bool.or_eq_true] at h ⊢
    rcases h with h | h
    · exact Or.inl (hm _ h)
    · exact Or.inr (ih h)

theorem matchIgnoreAt_phrase (r : List Char) :
    matchIgnoreAt ("ignore previous instructions".data ++ r) = true := rfl

/-- A body containing the literal phrase makes the first injection pattern
match (the regex has no word boundaries, so a plain substring suffices). -/
theorem testIgnorePrev_of_sub {body : String}
    (h : strHasSub body "ignore previous instructions" = true) :
    testIgnorePrev body = true := by
  unfold strHasSub at h
  unfold testIgnorePrev
  refine scanP_mono ?_ h
  intro l hl
  rcases Option.isSome_iff_exists.mp hl with ⟨r, hr⟩
  rw [chopLit_concat hr]
  exact matchIgnoreAt_phrase r

/-- Characterisation of the risk-level rule over any findings list. -/
theorem riskLevelOf_spec (T : List SecurityThreat) :
    (riskLevelOf T = RiskLevel.danger ↔ ∃ t ∈ T, t.severity = Severity.danger) ∧
      (riskLevelOf T = RiskLevel.warning ↔
        T ≠ [] ∧ ∀ t ∈ T, t.severity ≠ Severity.danger) ∧
      (riskLevelOf T = RiskLevel.clean ↔ T = []) := by
  unfold riskLevelOf
  by_cases hD : T.any (fun t => t.severity == Severity.danger) = true
  · rcases (by simpa using hD : ∃ t ∈ T, t.severity = Severity.danger) with ⟨t, ht, hd⟩
    have hne : T ≠ [] := by
      intro h
      subst h
      cases ht
    rw [if_pos hD]
    refine ⟨iff_of_true rfl ⟨t, ht, hd⟩, ?_, ?_⟩
    · apply iff_of_false
      · intro h; cases h
      · rintro ⟨_, hall⟩
        exact hall t ht hd
    · apply iff_of_false
      · intro h; cases h
      · exact hne
  · have hall : ∀ u ∈ T, u.severity ≠ Severity.danger := by
      intro u hu hd
      exact hD (by simp only [List.any_eq_true]; exact ⟨u, hu, by simp [hd]⟩)
    rw [if_neg hD]
    cases T with
    | nil => simp
    | cons t ts =>
      rw [if_pos (by simp : (t :: ts).length > 0)]
      refine ⟨?_, iff_of_true rfl ⟨List.cons_ne_nil t ts, hall⟩, ?_⟩
      · apply iff_of_false
        · intro h; cases h
        · rintro ⟨u, hu, hd⟩
          exact hall u hu hd
      · apply iff_of_false
        · intro h; cases h
        · exact List.cons_ne_nil t ts

/-- C6: every scan result classifies `danger` exactly when some finding is
`danger`, `warning` exactly when the findings are non-empty with none
`danger`, and `clean` exactly when there is no finding; and a manifest
whose extracted body contains the phrase `ignore previous instructions`
always yields a danger finding, making the overall risk level `danger`. -/
theorem scan_risk_contract :
    (∀ input : ScanInput,
      ((scanForThreats input).riskLevel = RiskLevel.danger ↔
        ∃ t ∈ (scanForThreats input).threats, t.severity = Severity.danger) ∧
      ((scanForThreats input).riskLevel = RiskLevel.warning ↔
        (scanForThreats input).threats ≠ [] ∧
          ∀ t ∈ (scanForThreats input).threats, t.severity ≠ Severity.danger) ∧
      ((scanForThreats input).riskLevel = RiskLevel.clean ↔
        (scanForThreats input).threats = [])) ∧
    (∀ (content : String) (scripts : Option (List (String × Option String))),
      strHasSub (extractBody content) "ignore previous instructions" = true →
      (∃ t ∈ (scanForThreats ⟨some (some content), scripts⟩).threats,
          t.severity = Severity.danger) ∧
        (scanForThreats ⟨some (some content), scripts⟩).riskLevel = RiskLevel.danger) := by
  have hproj : ∀ input : ScanInput,
      (scanForThreats input).riskLevel = riskLevelOf (scanForThreats input).threats :=
    fun _ => rfl
  constructor
  · intro input
    rw [hproj input]
    exact riskLevelOf_spec _
  · intro content scripts h
    have htest := testIgnorePrev_of_sub h
    have hmem : mkThreat ⟨testIgnorePrev, Severity.danger,
        "ignore\\s+(all\\s+)?previous\\s+instructions",
        "Prompt injection: ignore previous instructions"⟩ "SKILL.md" ∈
        (scanForThreats ⟨some (some content), scripts⟩).threats := by
      simp only [scanForThreats]
      apply List.mem_append_left
      apply List.mem_append_left
      apply List.mem_map_of_mem
      apply List.mem_filter.mpr
      constructor
      · simp [PROMPT_INJECTION_PATTERNS]
      · exact htest
    refine ⟨⟨_, hmem, rfl⟩, ?_⟩
    rw [hproj]
    exact (riskLevelOf_spec _).1.mpr ⟨_, hmem, rfl⟩

/-- Witness for C6 at a concrete manifest containing the phrase. -/
theorem scan_risk_contract_witness :
    (∃ t ∈ (scanForThreats ⟨some (some "---\nname: x\n---\nignore previous instructions"),
        none⟩).threats, t.severity = Severity.danger) ∧
      (scanForThreats ⟨some (some "---\nname: x\n---\nignore previous instructions"),
        none⟩).riskLevel = RiskLevel.danger :=
  scan_risk_contract.2 "---\nname: x\n---\nignore previous instructions" none (by decide)

/-! ### `installFromZip` -/

/-- One archive entry as JSZip iterates it. -/
structure ZipEntry where
  path : String
  isDir : Bool
  content : String
deriving DecidableEq

def strStartsWith (s pre : String) : Bool :=
  List.isPrefixOf pre.data s.data

def strEndsWith (s sfx : String) : Bool :=
  List.isPrefixOf sfx.data.reverse s.data.reverse

/-- JS `slice(n)` over characters. -/
def strDropN (n : Nat) (s : String) : String :=
  String.mk (s.data.drop n)

/-- Every entry path ending in `SKILL.md`, in archive order. -/
def zipSkillMdPaths (zip : List ZipEntry) : List String :=
  zip.filterMap (fun e => if strEndsWith e.path "SKILL.md" then some e.path else none)

/-- Parent directory of a manifest path (segments without the last, joined). -/
def parentJoin (p : String) : String :=
  segsJoin ((strSegs p).dropLast)

/-- Wrapper detection: when the first bundle root has depth two or more and
every root starts with its first segment plus a slash, that segment is the
shared one-level wrapper (returned with the trailing slash, else empty). -/
def commonWrapOf (roots : List String) : String :=
  match roots with
  | [] => ""
  | first :: _ =>
    let firstParts := strSegs first
    if firstParts.length ≥ 2 then
      let candidate := firstParts.getD 0 ""
      if roots.all (fun p => strStartsWith p (candidate ++ "/")) then candidate ++ "/"
      else ""
    else ""

/-- Bundle folder names: wrapper-stripped roots, skipping a root-level
manifest, first occurrence kept (JS `Map` insertion order). -/
def zipFolderNames (roots : List String) (cp : String) : List String :=
  roots.foldl
    (fun acc root =>
      let name := if cp ≠ "" then strDropN cp.length root else root
      if name = "" then acc
      else if acc.contains name then acc
      else acc ++ [name])
    []

/-- First bundle folder owning a (stripped) file path. -/
def assignFolder (folders : List String) (stripped : String) : Option String :=
  folders.find? (fun f => strStartsWith stripped (f ++ "/") || stripped == f)

/-- JS `Map.set`: overwrite in place, else append. -/
def mapSet (m : List (String × String)) (k : String) (v : String) :
    List (String × String) :=
  if m.any (fun kv => kv.1 == k) then
    m.map (fun kv => if kv.1 == k then (k, v) else kv)
  else m ++ [(k, v)]

/-- The files of one bundle folder: non-directory entries whose stripped
path falls under the folder (first matching folder wins), keyed by the
path relative to the folder. -/
def zipFilesFor (zip : List ZipEntry) (cp : String) (folders : List String)
    (folder : String) : List (String × String) :=
  zip.foldl
    (fun acc e =>
      if e.isDir then acc
      else
        let stripped := if cp ≠ "" then strDropN cp.length e.path else e.path
        match assignFolder folders stripped with
        | some f =>
          if f = folder then mapSet acc (strDropN (folder.length + 1) stripped) e.content
          else acc
        | none => acc)
    []

/-- Accumulator of the per-bundle install loop. -/
structure ZipLoopState where
  installed : List String
  errors : List String
  fs : FS
  store : Store

/-- One iteration of the per-bundle loop: stage the bundle's files, validate
(cleaning only this bundle's staging on failure and recording one error),
otherwise promote, backfill frontmatter and register the state entry. -/
def installZipStep (template : List (String × String)) (skillsDir : Path)
    (zip : List ZipEntry) (cp : String) (folders : List String)
    (nowMs : Nat) (nowIso : String) (st : ZipLoopState) (folder : String) :
    ZipLoopState :=
  let files := zipFilesFor zip cp folders folder
  let skillFolder := skillsDir ++ strSegs folder
  let stagingFolder := skillsDir ++ strSegs ("." ++ folder ++ ".staging-" ++ toString nowMs)
  let fs1 := mkdirRecursive st.fs stagingFolder
  let fs2 := writeFileSet fs1 stagingFolder files
  let validation := validateSkillDir fs2 stagingFolder
  if validation.valid = false then
    let fs3 := if fs2.ex stagingFolder then fs2.rmdirRec stagingFolder else fs2
    { st with
        errors := st.errors ++ [folder ++ ": " ++ String.intercalate "; " validation.errors],
        fs := fs3 }
  else
    let fs3 := replaceDirWithStaging fs2 stagingFolder skillFolder nowMs
    let fs4 := ensureFrontmatter template fs3 skillFolder { source := some "zip" }
    let store1 := st.store.setSkillState folder ⟨"zip", none, none, false, nowIso, none⟩
    { installed := st.installed ++ [folder], errors := st.errors, fs := fs4, store := store1 }

/-- Shallow embedding of `installFromZip`: discover the manifests, detect and
strip the shared wrapper, group the files per bundle, and install every
bundle independently through the staged protocol. -/
def installFromZip (template : List (String × String)) (fs : FS) (store : Store)
    (skillsDir : Path) (zip : List ZipEntry) (nowMs : Nat) (nowIso : String) :
    (List String × List String) × FS × Store :=
  let skillMdPaths := zipSkillMdPaths zip
  if skillMdPaths.isEmpty then (([], ["No SKILL.md files found in ZIP"]), fs, store)
  else
    let roots := skillMdPaths.map parentJoin
    let cp := commonWrapOf roots
    let folders := zipFolderNames roots cp
    let final := folders.foldl (installZipStep template skillsDir zip cp folders nowMs nowIso)
      ⟨[], [], fs, store⟩
    ((final.installed, final.errors), final.fs, final.store)

/-- Archive with two bundles under the shared one-level wrapper `pack/`. -/
def zipPack : List ZipEntry :=
  [⟨"pack/", true, ""⟩,
   ⟨"pack/skill-a/", true, ""⟩,
   ⟨"pack/skill-a/SKILL.md", false, "---\nname: a\ndescription: da\n---\nA"⟩,
   ⟨"pack/skill-a/scripts/r.sh", false, "echo"⟩,
   ⟨"pack/skill-b/", true, ""⟩,
   ⟨"pack/skill-b/SKILL.md", false, "---\nname: b\ndescription: db\n---\nB"⟩]

/-- Archive with one valid and one invalid bundle (missing description). -/
def zipMixed : List ZipEntry :=
  [⟨"pack/skill-a/SKILL.md", false, "---\nname: a\ndescription: da\n---\nA"⟩,
   ⟨"pack/skill-b/SKILL.md", false, "---\nname: b\n---\nB"⟩]

/-- An empty persistent store. -/
def emptyStore : Store := ⟨fun _ => none, ""⟩

/-- Each loop iteration contributes exactly one outcome (installed or error). -/
theorem installZipStep_one (template : List (String × String)) (skillsDir : Path)
    (zip : List ZipEntry) (cp : String) (folders : List String)
    (nowMs : Nat) (nowIso : String) (st : ZipLoopState) (folder : String) :
    (installZipStep template skillsDir zip cp folders nowMs nowIso st folder).installed.length +
        (installZipStep template skillsDir zip cp folders nowMs nowIso st folder).errors.length =
      st.installed.length + st.errors.length + 1 := by
  simp only [installZipStep]
  split
  · simp only [List.length_append, List.length_cons, List.length_nil]
    omega
  · simp only [List.length_append, List.length_cons, List.length_nil]
    omega

/-- The per-bundle loop never aborts: every bundle folder yields exactly one
outcome, so installed plus errors counts the folders. -/
theorem zipLoop_count (template : List (String × String)) (skillsDir : Path)
    (zip : List ZipEntry) (cp : String) (fl : List String)
    (nowMs : Nat) (nowIso : String) :
    ∀ (folders : List String) (st : ZipLoopState),
      (folders.foldl (installZipStep template skillsDir zip cp fl nowMs nowIso) st).installed.length +
          (folders.foldl (installZipStep template skillsDir zip cp fl nowMs nowIso) st).errors.length =
        st.installed.length + st.errors.length + folders.length := by
  intro folders
  induction folders with
  | nil => intro st; simp
  | cons f fs ih =>
    intro st
    simp only [List.foldl_cons, List.length_cons]
    rw [ih]
    have h := installZipStep_one template skillsDir zip cp fl nowMs nowIso st f
    omega

/-- C7: the `pack/skill-a`, `pack/skill-b` archive has its shared wrapper
detected and stripped — two bundles named `skill-a` and `skill-b` install
under the skills directory and no `pack` folder appears; in general every
bundle is processed independently (installed plus errors equals the number
of discovered bundle folders, so no failure blocks the rest); and in a
mixed archive the invalid bundle only contributes its error and its own
staging cleanup while the valid one still installs. -/
theorem installFromZip_contract :
    ((installFromZip [] FS.empty emptyStore ["skills"] zipPack 7 "t1").1.1 =
        ["skill-a", "skill-b"] ∧
      (installFromZip [] FS.empty emptyStore ["skills"] zipPack 7 "t1").1.2 = [] ∧
      ((installFromZip [] FS.empty emptyStore ["skills"] zipPack 7 "t1").2.1.files
          ["skills", "skill-a", "SKILL.md"]).isSome = true ∧
      ((installFromZip [] FS.empty emptyStore ["skills"] zipPack 7 "t1").2.1.files
          ["skills", "skill-b", "SKILL.md"]).isSome = true ∧
      (installFromZip [] FS.empty emptyStore ["skills"] zipPack 7 "t1").2.1.ex
          ["skills", "pack"] = false) ∧
    (∀ (template : List (String × String)) (fs : FS) (store : Store) (skillsDir : Path)
      (zip : List ZipEntry) (nowMs : Nat) (nowIso : String),
      zipSkillMdPaths zip ≠ [] →
      (installFromZip template fs store skillsDir zip nowMs nowIso).1.1.length +
          (installFromZip template fs store skillsDir zip nowMs nowIso).1.2.length =
        (zipFolderNames ((zipSkillMdPaths zip).map parentJoin)
          (commonWrapOf ((zipSkillMdPaths zip).map parentJoin))).length) ∧
    ((installFromZip [] FS.empty emptyStore ["skills"] zipMixed 7 "t1").1.1 = ["skill-a"] ∧
      (installFromZip [] FS.empty emptyStore ["skills"] zipMixed 7 "t1").1.2 =
        ["skill-b: Missing required frontmatter field: description"] ∧
      ((installFromZip [] FS.empty emptyStore ["skills"] zipMixed 7 "t1").2.1.files
          ["skills", "skill-a", "SKILL.md"]).isSome = true ∧
      (installFromZip [] FS.empty emptyStore ["skills"] zipMixed 7 "t1").2.1.ex
          ["skills", ".skill-b.staging-7"] = false ∧
      (installFromZip [] FS.empty emptyStore ["skills"] zipMixed 7 "t1").2.1.ex
          ["skills", "skill-b"] = false) := by
  refine ⟨⟨by decide, by decide, by decide, by decide, by decide⟩, ?_,
    ⟨by decide, by decide, by decide, by decide, by decide⟩⟩
  intro template fs store skillsDir zip nowMs nowIso hne
  unfold installFromZip
  rw [if_neg (fun hiE => hne (List.isEmpty_iff.mp hiE))]
  have h := zipLoop_count template skillsDir zip
    (commonWrapOf ((zipSkillMdPaths zip).map parentJoin))
    (zipFolderNames ((zipSkillMdPaths zip).map parentJoin)
      (commonWrapOf ((zipSkillMdPaths zip).map parentJoin)))
    nowMs nowIso
    (zipFolderNames ((zipSkillMdPaths zip).map parentJoin)
      (commonWrapOf ((zipSkillMdPaths zip).map parentJoin)))
    ⟨[], [], fs, store⟩
  simpa using h

/-- Witness for C7's universally quantified part at the concrete archive. -/
theorem installFromZip_contract_witness :
    (installFromZip [] FS.empty emptyStore ["skills"] zipPack 7 "t1").1.1.length +
        (installFromZip [] FS.empty emptyStore ["skills"] zipPack 7 "t1").1.2.length =
      (zipFolderNames ((zipSkillMdPaths zipPack).map parentJoin)
        (commonWrapOf ((zipSkillMdPaths zipPack).map parentJoin))).length :=
  installFromZip_contract.2.1 [] FS.empty emptyStore ["skills"] zipPack 7 "t1" (by decide)

theorem chopLit_app (p t : List Char) : chopLit p (p ++ t) = some t := by
  induction p with
  | nil => rfl
  | cons c cs ih => simp [chopLit, ih]

theorem dropWhile_cons_app {p : Char → Bool} {a : List Char} {c : Char} {cs : List Char}
    (h : a.dropWhile p = c :: cs) (b : List Char) :
    (a ++ b).dropWhile p = c :: (cs ++ b) := by
  induction a with
  | nil => cases h
  | cons x xs ih =>
    simp only [List.dropWhile] at h ⊢
    cases hx : p x with
    | true => simp only [hx] at h ⊢; exact ih h
    | false =>
      simp only [hx] at h ⊢
      cases h
      rfl

theorem presAt_app {field l : List Char} (s : List Char) (h : presAt field l = true) :
    presAt field (l ++ s) = true := by
  cases hc : chopLit field l with
  | none => simp only [presAt, hc] at h; cases h
  | some r =>
    simp only [presAt, hc] at h
    have hl : l = field ++ r := chopLit_concat hc
    subst hl
    simp only [presAt, List.append_assoc, chopLit_app]
    cases hd : r.dropWhile jsWs with
    | nil => simp only [hd] at h; cases h
    | cons c cs =>
      simp only [hd] at h
      rw [dropWhile_cons_app hd s]
      split at h
      · rename_i tail heq
        injection heq with h1 h2
        subst h1
        simp
      · cases h

theorem scanB_here {m : Option Char → List Char → Bool} {prev : Option Char}
    {l : List Char} (h : m prev l = true) : scanB m prev l = true := by
  cases l with
  | nil => exact h
  | cons c cs => simp [scanB, h]

theorem scanB_app {s : List Char} {m : Option Char → List Char → Bool}
    (hmono : ∀ p l, m p l = true → m p (l ++ s) = true) :
    ∀ {fm : List Char} {prev : Option Char}, scanB m prev fm = true →
      scanB m prev (fm ++ s) = true := by
  intro fm
  induction fm with
  | nil =>
    intro prev h
    exact scanB_here (hmono prev [] h)
  | cons c cs ih =>
    intro prev h
    simp only [scanB, Bool.or_eq_true] at h
    rcases h with h | h
    · simp only [List.cons_append, scanB, Bool.or_eq_true]
      exact Or.inl (hmono prev (c :: cs) h)
    · simp only [List.cons_append, scanB, Bool.or_eq_true]
      exact Or.inr (ih h)

theorem fieldPresent_mono {f : String} {fm : List Char} (s : List Char)
    (h : fieldPresent f fm = true) : fieldPresent f (fm ++ s) = true := by
  unfold fieldPresent at h ⊢
  refine scanB_app ?_ h
  intro p l hl
  simp only [Bool.and_eq_true] at hl ⊢
  exact ⟨hl.1, presAt_app s hl.2⟩

theorem chSplit_ne_nil (sep : Char) (l : List Char) : chSplit sep l ≠ [] := by
  cases l with
  | nil => simp [chSplit]
  | cons c cs =>
    simp only [chSplit]
    cases chSplit sep cs with
    | nil => simp
    | cons cur acc => by_cases hc : c = sep <;> simp [hc]

theorem chSplit_app (sep : Char) (a b : List Char) :
    chSplit sep (a ++ sep :: b) = chSplit sep a ++ chSplit sep b := by
  induction a with
  | nil =>
    simp only [List.nil_append, chSplit]
    cases hb : chSplit sep b with
    | nil => exact absurd hb (chSplit_ne_nil sep b)
    | cons cur acc => simp
  | cons c cs ih =>
    cases hsp : chSplit sep cs with
    | nil => exact absurd hsp (chSplit_ne_nil sep cs)
    | cons cur acc =>
      simp only [List.cons_append, chSplit, List.append_eq]
      rw [ih, hsp]
      by_cases hc : c = sep <;> simp [hc]

theorem chSplit_single {sep : Char} : ∀ {w : List Char}, (∀ c ∈ w, ¬ c = sep) →
    chSplit sep w = [w] := by
  intro w
  induction w with
  | nil => intro _; rfl
  | cons c cs ih =>
    intro h
    have hc : ¬ c = sep := h c (by simp)
    simp only [chSplit, ih (fun x hx => h x (by simp [hx])), hc, if_false]

theorem splitFirstColon_app : ∀ {a : List Char} (b : List Char),
    (∀ c ∈ a, ¬ c = ':') → splitFirstColon (a ++ ':' :: b) = some (a, b) := by
  intro a
  induction a with
  | nil => intro b _; simp [splitFirstColon]
  | cons c cs ih =>
    intro b h
    have hc : ¬ c = ':' := h c (by simp)
    have ih' := ih b (fun x hx => h x (by simp [hx]))
    simp only [List.cons_append, splitFirstColon, hc, if_false, List.append_eq]
    rw [ih']
    rfl

/-- Well-formedness of a backfill field name: non-empty, starting with a
non-whitespace character, free of colons and line terminators, and stable
under trimming (every field the source template and the source-tracking
code supply is of this shape). -/
def wfField (g : String) : Bool :=
  match g.data with
  | [] => false
  | c :: _ =>
    !jsWs c && g.data.all (fun ch => !(ch == ':') && !jsLineTerm ch) && (jsTrim g == g)

/-- Well-formedness of a backfill value: free of line terminators. -/
def wfValue (v : String) : Bool :=
  v.data.all (fun ch => !jsLineTerm ch)

theorem strData_app (a b : String) : (a ++ b).data = a.data ++ b.data := rfl

theorem parseKV_key {g : String} (v : String) (hg : wfField g = true) :
    ∃ val, parseKV ((g ++ ": " ++ v).data) = some (g, val) := by
  cases hgd : g.data with
  | nil => rw [wfField, hgd] at hg; cases hg
  | cons c gtail =>
    rw [wfField, hgd] at hg
    simp only [Bool.and_eq_true] at hg
    have hline : (g ++ ": " ++ v).data = c :: (gtail ++ ':' :: ' ' :: v.data) := by
      simp [strData_app, hgd]
    have hnc : ∀ x ∈ gtail, ¬ x = ':' := by
      intro x hx he
      have hx2 := List.all_eq_true.mp hg.1.2 x (by simp [hx])
      simp [he] at hx2
    rw [hline]
    unfold parseKV
    have hws : jsWs c = false := by
      cases hcc : jsWs c with
      | false => rfl
      | true => rw [hcc] at hg; simp at hg
    simp only [hws, Bool.false_eq_true, if_false]
    rw [splitFirstColon_app _ hnc]
    have hkey : jsTrim (String.mk (c :: gtail)) = g := by
      have hmk : String.mk (c :: gtail) = g := by rw [← hgd]
      rw [hmk]
      exact eq_of_beq hg.2
    refine ⟨stripQuotes (jsTrim (String.mk (((' ' :: v.data).dropWhile jsWs).takeWhile
      (fun ch => !jsLineTerm ch)))), ?_⟩
    simp [hkey]

/-- Appending one well-formed backfill line extends the parsed fields by one
entry keyed by the appended field. -/
theorem parseFields_append_line {g v : String} (fm : List Char)
    (hg : wfField g = true) (hv : wfValue v = true) :
    ∃ val, parseFields (fm ++ '\n' :: (g ++ ": " ++ v).data) =
      parseFields fm ++ [(g, val)] := by
  obtain ⟨val, hval⟩ := parseKV_key v hg
  have hd : (g ++ ": " ++ v).data = g.data ++ ':' :: ' ' :: v.data := by
    simp [strData_app]
  rw [hd] at hval
  refine ⟨val, ?_⟩
  rw [hd]
  unfold parseFields
  rw [chSplit_app]
  rw [List.filterMap_append]
  congr 1
  have hnl : ∀ c ∈ g.data ++ ':' :: ' ' :: v.data, ¬ c = '\n' := by
    intro c hc he
    rcases List.mem_append.mp hc with hc1 | hc2
    · cases hgd : g.data with
      | nil => rw [hgd] at hc1; cases hc1
      | cons x xs =>
        rw [wfField, hgd] at hg
        simp only [Bool.and_eq_true] at hg
        have := List.all_eq_true.mp hg.1.2 c (by rw [← hgd]; exact hc1)
        subst he
        simp [jsLineTerm] at this
    · rcases hc2 with _ | ⟨_, hc3⟩
      · simp at he
      · rcases hc3 with _ | ⟨_, hc4⟩
        · simp at he
        · have := List.all_eq_true.mp hv c hc4
          subst he
          simp [jsLineTerm] at this
  rw [chSplit_single hnl]
  simp [hval]

/-- Looking up a field different from the appended one is unchanged. -/
theorem fieldsGet_append_ne {g f : String} (ps : List (String × String))
    (val : String) (hne : ¬ g = f) :
    fieldsGet (ps ++ [(g, val)]) f = fieldsGet ps f := by
  unfold fieldsGet
  rw [List.reverse_append]
  simp only [List.reverse_singleton, List.singleton_append, List.lookup]
  have hfg : (f == g) = false := by
    cases hbe : f == g with
    | false => rfl
    | true => exact absurd (eq_of_beq hbe).symm hne
  rw [hfg]
  simp

theorem ensureFieldsGo_cons (gv : String × String) (ps : List (String × String))
    (st : List Char × Bool) :
    ensureFieldsGo (gv :: ps) st = ensureFieldsGo ps (ensureField st gv.1 gv.2) := rfl

theorem ensureFieldsGo_true (pairs : List (String × String)) :
    ∀ fm : List Char, (ensureFieldsGo pairs (fm, true)).2 = true := by
  induction pairs with
  | nil => intro fm; rfl
  | cons gv ps ih =>
    intro fm
    rw [ensureFieldsGo_cons]
    by_cases hp : fieldPresent gv.1 fm = true
    · rw [show ensureField (fm, true) gv.1 gv.2 = (fm, true) from by simp [ensureField, hp]]
      exact ih fm
    · rw [show ensureField (fm, true) gv.1 gv.2 =
        (fm ++ '\n' :: (gv.1 ++ ": " ++ gv.2).data, true) from by simp [ensureField, hp]]
      exact ih _

theorem ensureFieldsGo_unchanged (pairs : List (String × String)) :
    ∀ fm : List Char, (ensureFieldsGo pairs (fm, false)).2 = false →
      (ensureFieldsGo pairs (fm, false)).1 = fm := by
  induction pairs with
  | nil => intro fm _; rfl
  | cons gv ps ih =>
    intro fm h
    rw [ensureFieldsGo_cons] at h ⊢
    by_cases hp : fieldPresent gv.1 fm = true
    · rw [show ensureField (fm, false) gv.1 gv.2 = (fm, false) from
        by simp [ensureField, hp]] at h ⊢
      exact ih fm h
    · rw [show ensureField (fm, false) gv.1 gv.2 =
        (fm ++ '\n' :: (gv.1 ++ ": " ++ gv.2).data, true) from by simp [ensureField, hp]] at h
      rw [ensureFieldsGo_true ps _] at h
      cases h

/-- The backfill fold appends one block after the existing frontmatter, and
for every field already present the presence test stays true and the
parsed value is unchanged (so only absent fields are ever appended). -/
theorem ensureFieldsGo_spec (pairs : List (String × String)) :
    ∀ (fm : List Char),
      (∀ p ∈ pairs, wfField p.1 = true ∧ wfValue p.2 = true) →
      ∃ A, (∀ ch : Bool, (ensureFieldsGo pairs (fm, ch)).1 = fm ++ A) ∧
        ∀ f, fieldPresent f fm = true →
          fieldPresent f (fm ++ A) = true ∧
          fieldsGet (parseFields (fm ++ A)) f = fieldsGet (parseFields fm) f := by
  induction pairs with
  | nil =>
    intro fm _
    exact ⟨[], fun ch => by simp [ensureFieldsGo],
      fun f hf => ⟨by simpa using hf, by simp⟩⟩
  | cons gv ps ih =>
    intro fm hwf
    have hg := (hwf gv (by simp)).1
    have hv := (hwf gv (by simp)).2
    have hwf2 : ∀ p ∈ ps, wfField p.1 = true ∧ wfValue p.2 = true :=
      fun p hp => hwf p (by simp [hp])
    by_cases hpres : fieldPresent gv.1 fm = true
    · obtain ⟨A, hAch, hstab⟩ := ih fm hwf2
      refine ⟨A, ?_, hstab⟩
      intro ch
      rw [ensureFieldsGo_cons, show ensureField (fm, ch) gv.1 gv.2 = (fm, ch) from
        by simp [ensureField, hpres]]
      exact hAch ch
    · have hpres2 : fieldPresent gv.1 fm = false := by
        cases hc : fieldPresent gv.1 fm with
        | false => rfl
        | true => exact absurd hc hpres
      obtain ⟨A, hAch, hstab⟩ := ih (fm ++ '\n' :: (gv.1 ++ ": " ++ gv.2).data) hwf2
      refine ⟨'\n' :: (gv.1 ++ ": " ++ gv.2).data ++ A, ?_, ?_⟩
      · intro ch
        rw [ensureFieldsGo_cons, show ensureField (fm, ch) gv.1 gv.2 =
          (fm ++ '\n' :: (gv.1 ++ ": " ++ gv.2).data, true) from by simp [ensureField, hpres2]]
        rw [hAch true]
        simp
      · intro f hf
        have hne : ¬ gv.1 = f := by
          intro he
          rw [he, hf] at hpres2
          cases hpres2
        have hf2 : fieldPresent f (fm ++ '\n' :: (gv.1 ++ ": " ++ gv.2).data) = true :=
          fieldPresent_mono _ hf
        obtain ⟨hp2, hv2⟩ := hstab f hf2
        have hassoc : fm ++ ('\n' :: (gv.1 ++ ": " ++ gv.2).data ++ A) =
            (fm ++ '\n' :: (gv.1 ++ ": " ++ gv.2).data) ++ A := by simp
        constructor
        · rw [hassoc]
          exact hp2
        · rw [hassoc, hv2]
          obtain ⟨val, hpf⟩ := parseFields_append_line fm hg hv
          rw [hpf, fieldsGet_append_ne _ _ hne]

theorem fmOpen_recombine {l op r : List Char} (h : fmOpen l = some (op, r)) :
    l = op ++ r := by
  unfold fmOpen at h
  cases h5 : chopLit ['-', '-', '-', '\r', '\n'] l with
  | some r5 =>
    rw [h5] at h
    cases h
    exact chopLit_concat h5
  | none =>
    rw [h5] at h
    cases h4 : chopLit ['-', '-', '-', '\n'] l with
    | some r4 =>
      rw [h4] at h
      cases h
      exact chopLit_concat h4
    | none =>
      rw [h4] at h
      cases h

theorem fmFindClose_recombine : ∀ {l fm cl rest : List Char},
    fmFindClose l = some (fm, cl, rest) → l = fm ++ cl ++ rest := by
  intro l
  induction l with
  | nil => intro fm cl rest h; cases h
  | cons c cs ih =>
    intro fm cl rest h
    unfold fmFindClose at h
    cases h5 : chopLit ['\r', '\n', '-', '-', '-'] (c :: cs) with
    | some r5 =>
      rw [h5] at h
      cases h
      simpa using chopLit_concat h5
    | none =>
      rw [h5] at h
      cases h4 : chopLit ['\n', '-', '-', '-'] (c :: cs) with
      | some r4 =>
        rw [h4] at h
        cases h
        simpa using chopLit_concat h4
      | none =>
        rw [h4] at h
        cases hrec : fmFindClose cs with
        | none => rw [hrec] at h; cases h
        | some t =>
          rw [hrec] at h
          cases h
          have := ih hrec
          simp only [List.cons_append]
          rw [← this]

theorem fmSplit_recombine {content : String} {op fm cl rest : List Char}
    (h : fmSplit content = some (op, fm, cl, rest)) :
    content.data = op ++ fm ++ cl ++ rest := by
  unfold fmSplit at h
  cases ho : fmOpen content.data with
  | none => rw [ho] at h; cases h
  | some p =>
    rw [ho] at h
    have h1 : (fmFindClose p.2).map (fun t => (p.1, t.1, t.2.1, t.2.2)) =
        some (op, fm, cl, rest) := h
    cases hc : fmFindClose p.2 with
    | none => rw [hc] at h1; cases h1
    | some t =>
      rw [hc] at h1
      have h2 : (p.1, t.1, t.2.1, t.2.2) = (op, fm, cl, rest) := Option.some.inj h1
      have hop := fmOpen_recombine ho
      have hcl := fmFindClose_recombine (show fmFindClose p.2 = some (t.1, t.2.1, t.2.2) from
        by rw [hc])
      rw [hop, hcl]
      rw [show p.1 = op from congrArg (fun q => q.1) h2,
        show t.1 = fm from congrArg (fun q => q.2.1) h2,
        show t.2.1 = cl from congrArg (fun q => q.2.2.1) h2,
        show t.2.2 = rest from congrArg (fun q => q.2.2.2) h2]
      simp

/-- C10: the frontmatter backfill after promotion only appends fields that
are absent.  A manifest whose file is unreadable or has no frontmatter
block is left entirely unmodified; otherwise the new content is the old
one with a (possibly empty) block appended to the frontmatter — the body
after the closing delimiter is unchanged, every other file is untouched,
and any field already present in the frontmatter keeps its parsed value. -/
theorem ensureFrontmatter_backfill_contract :
    (∀ (template : List (String × String)) (fs : FS) (folder : Path)
      (d : FrontmatterDefaults),
      fs.read (folder ++ ["SKILL.md"]) = none →
      ensureFrontmatter template fs folder d = fs) ∧
    (∀ (template : List (String × String)) (fs : FS) (folder : Path)
      (d : FrontmatterDefaults) (content : String),
      fs.read (folder ++ ["SKILL.md"]) = some content →
      fmSplit content = none →
      ensureFrontmatter template fs folder d = fs) ∧
    (∀ (template : List (String × String)) (fs : FS) (folder : Path)
      (d : FrontmatterDefaults) (content : String) (op fm cl rest : List Char),
      (∀ p ∈ ensurePairs template d, wfField p.1 = true ∧ wfValue p.2 = true) →
      fs.read (folder ++ ["SKILL.md"]) = some content →
      fmSplit content = some (op, fm, cl, rest) →
      ∃ A,
        (ensureFrontmatter template fs folder d).read (folder ++ ["SKILL.md"]) =
          some (String.mk (op ++ (fm ++ A) ++ cl ++ rest)) ∧
        (∀ p : Path, ¬ p = folder ++ ["SKILL.md"] →
          (ensureFrontmatter template fs folder d).files p = fs.files p) ∧
        (∀ f, fieldPresent f fm = true →
          fieldsGet (parseFields (fm ++ A)) f = fieldsGet (parseFields fm) f)) := by
  refine ⟨?_, ?_, ?_⟩
  · intro template fs folder d hread
    by_cases hex : fs.ex (folder ++ ["SKILL.md"]) = false
    · simp [ensureFrontmatter, hex]
    · simp [ensureFrontmatter, hex, hread]
  · intro template fs folder d content hread hsplit
    by_cases hex : fs.ex (folder ++ ["SKILL.md"]) = false
    · simp [ensureFrontmatter, hex]
    · simp [ensureFrontmatter, hex, hread, hsplit]
  · intro template fs folder d content op fm cl rest hwf hread hsplit
    have hex : (fs.ex (folder ++ ["SKILL.md"]) = false) = False := by
      simp only [FS.ex]
      rw [show fs.files (folder ++ ["SKILL.md"]) = some content from hread]
      simp
    obtain ⟨A, hAch, hstab⟩ := ensureFieldsGo_spec (ensurePairs template d) fm hwf
    by_cases hch : (ensureFieldsGo (ensurePairs template d) (fm, false)).2 = true
    · refine ⟨A, ?_, ?_, fun f hf => (hstab f hf).2⟩
      · simp only [ensureFrontmatter, hex, if_false, hread, hsplit, hch, if_true]
        rw [hAch false]
        simp [FS.read, FS.write]
      · intro p hp
        simp only [ensureFrontmatter, hex, if_false, hread, hsplit, hch, if_true]
        simp [FS.write, hp]
    · have hch2 : (ensureFieldsGo (ensurePairs template d) (fm, false)).2 = false := by
        cases hcc : (ensureFieldsGo (ensurePairs template d) (fm, false)).2 with
        | false => rfl
        | true => exact absurd hcc hch
      have hfix := ensureFieldsGo_unchanged (ensurePairs template d) fm hch2
      have hAnil : A = [] := by
        have h1 := hAch false
        rw [hfix] at h1
        have h2 : fm ++ [] = fm ++ A := by simpa using h1
        exact (List.append_cancel_left h2).symm
      subst hAnil
      refine ⟨[], ?_, ?_, fun f hf => by simp⟩
      · have hrec := fmSplit_recombine hsplit
        simp only [ensureFrontmatter, hex, if_false, hread, hsplit, hch2,
          Bool.false_eq_true, if_false]
        rw [show op ++ (fm ++ []) ++ cl ++ rest = content.data from by rw [hrec]; simp]
      · intro p hp
        simp only [ensureFrontmatter, hex, if_false, hread, hsplit, hch2,
          Bool.false_eq_true, if_false]

/-- Vault holding one installed manifest used by the backfill witness. -/
def fsSkillA : FS :=
  ((FS.empty.mkdir ["skills"]).mkdir ["skills", "a"]).write
    ["skills", "a", "SKILL.md"] "---\nname: a\ndescription: d\n---\nBody"

/-- Witness for C10 at a concrete manifest, template and defaults. -/
theorem ensureFrontmatter_backfill_contract_witness :
    ∃ A,
      (ensureFrontmatter [("category", "uncategorized")] fsSkillA ["skills", "a"]
          ⟨none, none, some "zip", none, none⟩).read (["skills", "a"] ++ ["SKILL.md"]) =
        some (String.mk ("---\n".data ++ ("name: a\ndescription: d".data ++ A) ++
          "\n---".data ++ "\nBody".data)) ∧
      (∀ p : Path, ¬ p = ["skills", "a"] ++ ["SKILL.md"] →
        (ensureFrontmatter [("category", "uncategorized")] fsSkillA ["skills", "a"]
            ⟨none, none, some "zip", none, none⟩).files p = fsSkillA.files p) ∧
      (∀ f, fieldPresent f "name: a\ndescription: d".data = true →
        fieldsGet (parseFields ("name: a\ndescription: d".data ++ A)) f =
          fieldsGet (parseFields "name: a\ndescription: d".data) f) :=
  ensureFrontmatter_backfill_contract.2.2 [("category", "uncategorized")] fsSkillA
    ["skills", "a"] ⟨none, none, some "zip", none, none⟩
    "---\nname: a\ndescription: d\n---\nBody"
    "---\n".data "name: a\ndescription: d".data "\n---".data "\nBody".data
    (by decide) (by decide) (by decide)

end SkillsMgr
